import Mathlib

/-!
# Verification of the pddlenv grounding engine and search layer

Shallow embedding of the pddlenv repository (grounding of PDDL actions,
STRIPS apply/applicable semantics, array index ravelling, and plan search),
together with proofs checking the natural-language specification against it.

Conventions of the embedding:
* Python `str`-subclass values (`PDDLObject`, grounded `Predicate` literals,
  grounded `Action`s, `Problem`s) compare by content; we model them as
  structures with structural (decidable) equality over the identifying data.
* Python sets become `Finset`, tuples/lists become `List`, floats become `ℚ`
  (the code only does exact arithmetic on the values our claims touch).
* Python exceptions become `Except`; a raising call site is a function
  returning `Except ε α`.
-/

namespace Pddlenv

/-- A grounded literal, i.e. an instance of `Predicate` in `pddlenv/base.py`:
a predicate name applied to a tuple of object names.  In the source it is the
interned string `"(Name arg1 arg2 ...)"`; equality of that string is equality
of the (name, args) pair. -/
structure Lit where
  pred : String
  args : List String
deriving DecidableEq, Repr

/-- Arity of a grounded literal (`Predicate.arity` of its class equals the
length of the grounded object tuple). -/
def Lit.arity (l : Lit) : Nat := l.args.length

/-- A `PDDLObject` as produced by `define_object_type`: an object name whose
Python class sits in a class hierarchy; `ancestors` is the list of type names
of the object's class and all of its `PDDLObject` ancestors (the
`type_hierarchy`). -/
structure PDDLObj where
  name : String
  ancestors : List String
deriving DecidableEq, Repr

/-- A predicate schema (a `Predicate` subclass created by `predicate(...)`):
a name plus one allowed-type set per argument position (`cls.types`). -/
structure PredSchema where
  name : String
  argTypes : List (List String)
deriving DecidableEq, Repr

/-- `Predicate.arity = len(cls.types)`. -/
def PredSchema.arity (ps : PredSchema) : Nat := ps.argTypes.length

/-- An action schema (an `Action` subclass created by `define_action`):
per-variable allowed-type sets (`cls.types`) and the precondition/add/delete
templates already resolved to variable indices by `variable_predicate_map`
(`cls.pre_predicates`, `cls.add_predicates`, `cls.del_predicates`). -/
structure ActionSchema where
  name : String
  varTypes : List (List String)
  pre : List (PredSchema × List Nat)
  add : List (PredSchema × List Nat)
  del : List (PredSchema × List Nat)
deriving DecidableEq, Repr

/-! ### Lexicographic string order

Python compares `str` values lexicographically by code point.  Lean's builtin
`String` order does not reduce inside the kernel, so the embedding uses an
equivalent executable comparison on the code points of the characters. -/

def charsLe : List Char → List Char → Bool
  | [], _ => true
  | _ :: _, [] => false
  | a :: as, b :: bs =>
    if a.toNat < b.toNat then true
    else if b.toNat < a.toNat then false
    else charsLe as bs

/-- Python's `<=` on strings: lexicographic comparison by code point. -/
def strLe (a b : String) : Prop := charsLe a.data b.data = true

instance : DecidableRel strLe :=
  fun a b => inferInstanceAs (Decidable (charsLe a.data b.data = true))

theorem charsLe_total : ∀ as bs : List Char, charsLe as bs = true ∨ charsLe bs as = true := by
  intro as
  induction as with
  | nil => intro bs; left; rfl
  | cons a as ih =>
    intro bs
    cases bs with
    | nil => right; rfl
    | cons b bs =>
      rcases lt_trichotomy a.toNat b.toNat with h | h | h
      · left; simp [charsLe, h]
      · have h1 : ¬ a.toNat < b.toNat := by omega
        have h2 : ¬ b.toNat < a.toNat := by omega
        rcases ih bs with hl | hr
        · left; simp [charsLe, h1, h2, hl]
        · right; simp [charsLe, h1, h2, hr]
      · right; simp [charsLe, h]

theorem charsLe_trans : ∀ as bs cs : List Char,
    charsLe as bs = true → charsLe bs cs = true → charsLe as cs = true := by
  intro as
  induction as with
  | nil => intro bs cs _ _; rfl
  | cons a as ih =>
    intro bs cs hab hbc
    cases bs with
    | nil => simp [charsLe] at hab
    | cons b bs =>
      cases cs with
      | nil => simp [charsLe] at hbc
      | cons c cs =>
        simp only [charsLe] at hab hbc ⊢
        rcases lt_trichotomy a.toNat b.toNat with h1 | h1 | h1
        · rcases lt_trichotomy b.toNat c.toNat with h2 | h2 | h2
          · simp [show a.toNat < c.toNat by omega]
          · simp [show a.toNat < c.toNat by omega]
          · rw [if_neg (by omega), if_pos h2] at hbc; cases hbc
        · have hab' : charsLe as bs = true := by
            rw [if_neg (by omega), if_neg (by omega)] at hab; exact hab
          rcases lt_trichotomy b.toNat c.toNat with h2 | h2 | h2
          · simp [show a.toNat < c.toNat by omega]
          · have hbc' : charsLe bs cs = true := by
              rw [if_neg (by omega), if_neg (by omega)] at hbc; exact hbc
            rw [if_neg (by omega), if_neg (by omega)]
            exact ih bs cs hab' hbc'
          · rw [if_neg (by omega), if_pos h2] at hbc; cases hbc
        · rw [if_neg (by omega), if_pos h1] at hab; cases hab

instance : IsTotal String strLe := ⟨fun a b => charsLe_total a.data b.data⟩

instance : IsTrans String strLe := ⟨fun a b c => charsLe_trans a.data b.data c.data⟩

/-- A grounded action: the state of an `Action` instance after
`Action.__init__` has run (its identifying string `"Name(args)"` plus the
computed precondition/add/delete literal sets). -/
structure Action where
  name : String
  objects : List String
  preconditions : Finset Lit
  add_effects : Finset Lit
  del_effects : Finset Lit
deriving DecidableEq

/-- `Action.applicable(self, literals)`: `self.preconditions <= literals`. -/
def Action.applicable (a : Action) (literals : Finset Lit) : Bool :=
  decide (a.preconditions ⊆ literals)

/-- `Action.apply(self, literals)`: `(literals - self.del_effects) | self.add_effects`. -/
def Action.apply (a : Action) (literals : Finset Lit) : Finset Lit :=
  (literals \ a.del_effects) ∪ a.add_effects

/-! ## Grounding (pddlenv/base.py: Predicate.__new__, Action.__init__,
Action.ground, Problem, TypeObjectMap) -/

/-- The two exception kinds raised while grounding: `InvalidAssignment`
(static-literal membership failure, recoverable) and `ValueError`
(arity/argument-count mismatch, fatal). -/
inductive GroundErr
  | invalidAssignment
  | valueError
deriving DecidableEq, Repr

/-- A `Problem` instance together with the class-level data its `Problem`
subclass carries (`types` are not semantically relevant here; `actions` and
`predicates` are stored sorted by name by `Problem.__init_subclass__`,
which `mkProblem` below performs). -/
structure Problem where
  name : String
  actions : List ActionSchema
  predicates : List PredSchema
  objects : List PDDLObj
  goal : Finset Lit
  staticLiterals : Finset Lit
deriving DecidableEq

/-- `TypeObjectMap.__getitem__` on a tuple key: all objects whose type is one
of the key types or a descendant thereof, deduplicated and sorted by name.
This is the denotation of the recursive `typemap`/`_subtypes` traversal in the
source (`chain(typemap.get(key, {}), *(self[t] for t in subtypes))` followed
by `tuple(sorted(frozenset(objects)))`). -/
def typeLookup (objs : List PDDLObj) (key : List String) : List String :=
  (((objs.filter (fun o => key.any (fun t => t ∈ o.ancestors))).map
    PDDLObj.name).dedup).insertionSort strLe

/-- `find_static_predicates(actions, predicates)`: the predicates minus every
predicate appearing in some action's add or delete effect templates
(predicate classes are interned by name, so name sets model class sets). -/
def Problem.staticPredicates (p : Problem) : Finset String :=
  (p.predicates.map PredSchema.name).toFinset \
    (p.actions.flatMap (fun a =>
      a.add.map (fun t => t.1.name) ++ a.del.map (fun t => t.1.name))).toFinset

/-- `(objects[i] for i in var_idx)`: select the action's objects at the
template's variable indices; an out-of-range index is an `IndexError`
(modelled as `valueError`). -/
def instArgs (objs : List String) : List Nat → Except GroundErr (List String)
  | [] => .ok []
  | i :: rest =>
    match objs[i]? with
    | none => .error .valueError
    | some o => (instArgs objs rest).map (o :: ·)

/-- `Predicate.__new__(cls, *objects, problem=problem)`: arity check, then
build the grounded literal; with a problem, a static predicate whose literal
is not among the known static literals raises `InvalidAssignment`. -/
def predInst (ps : PredSchema) (objs : List String) (problem : Option Problem) :
    Except GroundErr Lit :=
  if objs.length ≠ ps.argTypes.length then .error .valueError
  else
    let lit : Lit := ⟨ps.name, objs⟩
    match problem with
    | some pb =>
      if ps.name ∈ pb.staticPredicates ∧ lit ∉ pb.staticLiterals then
        .error .invalidAssignment
      else .ok lit
    | none => .ok lit

/-- Instantiate a list of literal templates left to right (the order a Python
`set(...)` comprehension evaluates the generator), propagating the first
exception. -/
def instLits (objs : List String) (problem : Option Problem) :
    List (PredSchema × List Nat) → Except GroundErr (List Lit)
  | [] => .ok []
  | (ps, idxs) :: rest =>
    match instArgs objs idxs with
    | .error e => .error e
    | .ok args =>
      match predInst ps args problem with
      | .error e => .error e
      | .ok l => (instLits objs problem rest).map (l :: ·)

instance {ε α : Type} [DecidableEq ε] [DecidableEq α] : DecidableEq (Except ε α) :=
  fun x y =>
    match x, y with
    | .error e, .error e' => decidable_of_iff (e = e') (by simp)
    | .ok a, .ok b => decidable_of_iff (a = b) (by simp)
    | .error _, .ok _ => isFalse (by simp)
    | .ok _, .error _ => isFalse (by simp)

/-- The precondition set after `Action.__init__`'s
`if problem is not None: preconditions -= problem.static_literals`. -/
def strippedPre (problem : Option Problem) (preL : List Lit) : Finset Lit :=
  match problem with
  | some pb => preL.toFinset \ pb.staticLiterals
  | none => preL.toFinset

/-- `Action.__new__` + `Action.__init__`: arity check; instantiate the
precondition templates with the problem (this is where `InvalidAssignment`
can be raised) and the effect templates without it; strip known static
literals from the preconditions; then apply the STRIPS convention
(`del_effects -= add_effects`) and the no-redundant-add optimisation
(`add_effects -= preconditions`), in that order. -/
def mkAction (cls : ActionSchema) (objs : List String) (problem : Option Problem) :
    Except GroundErr Action :=
  if objs.length ≠ cls.varTypes.length then .error .valueError
  else
    match instLits objs problem cls.pre with
    | .error e => .error e
    | .ok preL =>
      match instLits objs none cls.add with
      | .error e => .error e
      | .ok addL =>
        match instLits objs none cls.del with
        | .error e => .error e
        | .ok delL =>
          -- `del_effects -= add_effects` (STRIPS) runs before
          -- `add_effects -= preconditions`, so the delete set is reduced by
          -- the *unreduced* add set.
          .ok ⟨cls.name, objs, strippedPre problem preL,
               addL.toFinset \ strippedPre problem preL,
               delL.toFinset \ addL.toFinset⟩

/-- `itertools.product(*possible_values)`: cartesian product of the
per-variable candidate lists, first variable outermost (rightmost varies
fastest), in list order. -/
def listProd {α : Type} : List (List α) → List (List α)
  | [] => [[]]
  | xs :: rest => xs.flatMap (fun x => (listProd rest).map (x :: ·))

/-- The assignment enumeration of `Action.ground`:
`itertools.product(*(problem.objectmap[var_types] for var_types in cls.types))`. -/
def ActionSchema.assignments (cls : ActionSchema) (p : Problem) : List (List String) :=
  listProd (cls.varTypes.map (typeLookup p.objects))

/-- The generator loop of `Action.ground`: yield each assignment's grounded
action, silently skipping assignments raising `InvalidAssignment`; any other
exception propagates to the consumer of the generator. -/
def groundAux (cls : ActionSchema) (p : Problem) :
    List (List String) → Except GroundErr (List Action)
  | [] => .ok []
  | asg :: rest =>
    match mkAction cls asg (some p) with
    | .ok a => (groundAux cls p rest).map (a :: ·)
    | .error .invalidAssignment => groundAux cls p rest
    | .error .valueError => .error .valueError

/-- `Action.ground(cls, problem)`, fully consumed. -/
def ActionSchema.groundE (cls : ActionSchema) (p : Problem) : Except GroundErr (List Action) :=
  groundAux cls p (cls.assignments p)

/-- The grounded actions of one schema when no assignment raises a fatal
error: the assignments that ground successfully, in enumeration order. -/
def ActionSchema.groundList (cls : ActionSchema) (p : Problem) : List Action :=
  (cls.assignments p).filterMap (fun asg => (mkAction cls asg (some p)).toOption)

/-- Sort key used by `Problem.__init_subclass__`:
`sorted(actions, key=operator.attrgetter("__name__"))`. -/
def schemaNameLe (a b : ActionSchema) : Prop := strLe a.name b.name

instance : DecidableRel schemaNameLe :=
  fun a b => inferInstanceAs (Decidable (strLe a.name b.name))

instance : IsTotal ActionSchema schemaNameLe :=
  ⟨fun a b => charsLe_total a.name.data b.name.data⟩

instance : IsTrans ActionSchema schemaNameLe :=
  ⟨fun _ _ _ h h' => charsLe_trans _ _ _ h h'⟩

/-- Python's `sorted` by name (a stable sort, as is insertion sort). -/
def sortSchemas (l : List ActionSchema) : List ActionSchema :=
  l.insertionSort schemaNameLe

def predNameLe (a b : PredSchema) : Prop := strLe a.name b.name

instance : DecidableRel predNameLe :=
  fun a b => inferInstanceAs (Decidable (strLe a.name b.name))

/-- `Problem.__init_subclass__` + `Problem.__init__`: store the action and
predicate schemas sorted by name, and freeze the goal and static-literal
sets. -/
def mkProblem (name : String) (predicates : List PredSchema) (actions : List ActionSchema)
    (objects : List PDDLObj) (goal staticLits : List Lit) : Problem :=
  ⟨name, sortSchemas actions, predicates.insertionSort predNameLe, objects,
    goal.toFinset, staticLits.toFinset⟩

/-- Left-to-right `Except`-effectful map, as an eager Python loop. -/
def exMapM {α β : Type} (f : α → Except GroundErr β) : List α → Except GroundErr (List β)
  | [] => .ok []
  | a :: rest =>
    match f a with
    | .error e => .error e
    | .ok b => (exMapM f rest).map (b :: ·)

/-- `Problem.grounded_actions`:
`tuple(itertools.chain(*(a.ground(self) for a in self.actions)))`, with any
fatal grounding exception propagating. -/
def Problem.groundedActionsE (p : Problem) : Except GroundErr (List Action) :=
  (exMapM (fun c => c.groundE p) p.actions).map List.flatten

/-- `Problem.grounded_actions` in the error-free case. -/
def Problem.groundedActions (p : Problem) : List Action :=
  p.actions.flatMap (fun c => c.groundList p)

/-- `Problem.goal_satisfied(literals)`: `self.goal <= literals`. -/
def Problem.goalSatisfied (p : Problem) (literals : Finset Lit) : Bool :=
  decide (p.goal ⊆ literals)

/-- `Problem.valid_actions(literals)`: the grounded actions applicable in
`literals`, in `grounded_actions` order. -/
def Problem.validActions (p : Problem) (literals : Finset Lit) : List Action :=
  p.groundedActions.filter (fun a => a.applicable literals)

/-- C1: `applicable(a, F)` is true iff `a.preconditions ⊆ F`; in particular it
is true at `F = a.preconditions` and false at `a.preconditions` with any
single element removed. -/
theorem applicable_iff_preconditions_subset :
    ∀ (a : Action) (F : Finset Lit),
      (a.applicable F = true ↔ a.preconditions ⊆ F)
      ∧ a.applicable a.preconditions = true
      ∧ ∀ x ∈ a.preconditions, a.applicable (a.preconditions.erase x) = false := by
  intro a F
  refine ⟨by simp [Action.applicable], by simp [Action.applicable], ?_⟩
  intro x hx
  simp only [Action.applicable, decide_eq_false_iff_not]
  intro hsub
  exact (Finset.not_mem_erase x a.preconditions) (hsub hx)

/-- The grounded `CleanHouse(cat, house)` action of the toy domain, used as
a concrete fixture. -/
def wCleanAction : Action :=
  { name := "CleanHouse", objects := ["cat", "house"],
    preconditions := {⟨"Dirty", ["house"]⟩, ⟨"Out", ["cat", "house"]⟩},
    add_effects := {⟨"ParentsHappy", ["house"]⟩, ⟨"Clean", ["house"]⟩},
    del_effects := {⟨"Dirty", ["house"]⟩} }

/-- Witness for C1 at a concrete grounded action. -/
theorem applicable_iff_preconditions_subset_witness :
    wCleanAction.applicable wCleanAction.preconditions = true
      ∧ wCleanAction.applicable
        (wCleanAction.preconditions.erase ⟨"Dirty", ["house"]⟩) = false := by
  refine ⟨(applicable_iff_preconditions_subset wCleanAction
    wCleanAction.preconditions).2.1, ?_⟩
  exact (applicable_iff_preconditions_subset wCleanAction
    wCleanAction.preconditions).2.2 ⟨"Dirty", ["house"]⟩ (by decide)

/-- C2: `apply(a, F)` returns exactly `(F − del_effects) ∪ add_effects`;
membership in the result is characterised accordingly.  (Purity—returning a
fresh set without mutating `F`—holds by construction in the source: the Python
expression `(literals - self.del_effects) | self.add_effects` allocates new
sets and never mutates its operands.) -/
theorem apply_eq_sdiff_union :
    ∀ (a : Action) (F : Finset Lit),
      a.apply F = (F \ a.del_effects) ∪ a.add_effects
      ∧ ∀ x : Lit, x ∈ a.apply F ↔ (x ∈ F ∧ x ∉ a.del_effects) ∨ x ∈ a.add_effects := by
  intro a F
  refine ⟨rfl, fun x => ?_⟩
  simp [Action.apply, Finset.mem_union, Finset.mem_sdiff]

/-! ## C3: STRIPS overlap post-processing -/

/-- A predicate schema `P(x : T)` used for the overlap counterexample. -/
def pSchema : PredSchema := ⟨"P", [["T"]]⟩

/-- An action schema whose precondition, add-effect and delete-effect
templates all contain the same lifted literal `P(x)`. -/
def toggleSchema : ActionSchema :=
  ⟨"Toggle", [["T"]], [(pSchema, [0])], [(pSchema, [0])], [(pSchema, [0])]⟩

/-- C3 counterexample: grounding `toggleSchema` at object `o` (no problem
supplied) instantiates `P(o)` as both an add-effect and a delete-effect, yet
the resulting action's `add_effects` is empty—the coinciding literal is *not*
kept in `add_effects`, because `add_effects -= preconditions` removes it
again.  (The sets are still disjoint.) -/
theorem strips_add_wins_counterexample :
    instLits ["o"] none toggleSchema.add = .ok [⟨"P", ["o"]⟩]
    ∧ instLits ["o"] none toggleSchema.del = .ok [⟨"P", ["o"]⟩]
    ∧ (mkAction toggleSchema ["o"] none).toOption.map Action.add_effects = some ∅ := by
  refine ⟨by decide, by decide, by decide⟩

/-- C3 (amended): every grounded action has disjoint add/delete effect sets;
a literal instantiated by both the add and the delete templates is dropped
from `del_effects` (add wins the STRIPS step) and is kept in `add_effects`
unless it also lies in the action's final (static-stripped) precondition set,
in which case it is removed from `add_effects` too. -/
theorem ground_action_effects_disjoint :
    ∀ (cls : ActionSchema) (objs : List String) (problem : Option Problem) (a : Action),
      mkAction cls objs problem = .ok a →
      a.add_effects ∩ a.del_effects = ∅
      ∧ ∀ addL delL : List Lit,
          instLits objs none cls.add = .ok addL →
          instLits objs none cls.del = .ok delL →
          ∀ l ∈ addL, l ∈ delL →
            l ∉ a.del_effects ∧ (l ∉ a.preconditions → l ∈ a.add_effects) := by
  intro cls objs problem a h
  rw [mkAction] at h
  by_cases hlen : objs.length ≠ cls.varTypes.length
  · rw [if_pos hlen] at h; cases h
  rw [if_neg hlen] at h
  cases hpre : instLits objs problem cls.pre with
  | error e => rw [hpre] at h; cases h
  | ok preL =>
    rw [hpre] at h
    cases hadd : instLits objs none cls.add with
    | error e => rw [hadd] at h; cases h
    | ok addL =>
      rw [hadd] at h
      cases hdel : instLits objs none cls.del with
      | error e => rw [hdel] at h; cases h
      | ok delL =>
        rw [hdel] at h
        injection h with h
        subst h
        constructor
        · ext x
          simp only [Finset.mem_inter, Finset.mem_sdiff, Finset.not_mem_empty, iff_false]
          tauto
        · intro addL' delL' haddL' hdelL' l hlAdd hlDel
          have haddEq : addL = addL' := Except.ok.inj haddL'
          have hdelEq : delL = delL' := Except.ok.inj hdelL'
          subst haddEq; subst hdelEq
          refine ⟨?_, ?_⟩
          · simp only [Finset.mem_sdiff, List.mem_toFinset, not_and, not_not]
            intro _
            exact hlAdd
          · intro hnotPre
            exact Finset.mem_sdiff.mpr ⟨List.mem_toFinset.mpr hlAdd, hnotPre⟩

/-- The result of grounding `Toggle` on `["o"]`: the shared literal ends up
in neither effect set because it also lies in the precondition. -/
def toggleGrounded : Action :=
  { name := "Toggle", objects := ["o"],
    preconditions := {⟨"P", ["o"]⟩}, add_effects := ∅, del_effects := ∅ }

/-- Witness for C3: the amended theorem applied to the concrete `Toggle`
grounding. -/
theorem ground_action_effects_disjoint_witness :
    mkAction toggleSchema ["o"] none = .ok toggleGrounded
      ∧ toggleGrounded.add_effects ∩ toggleGrounded.del_effects = ∅ := by
  have h : mkAction toggleSchema ["o"] none = .ok toggleGrounded := by decide
  exact ⟨h, (ground_action_effects_disjoint toggleSchema ["o"] none
    toggleGrounded h).1⟩

/-! ## C5: InvalidAssignment is caught inside ground() -/

/-- `objects[i]` index selection never raises `InvalidAssignment` (only
`IndexError`, a `valueError`). -/
theorem instArgs_no_invalid (objs : List String) :
    ∀ idxs : List Nat, instArgs objs idxs ≠ .error .invalidAssignment := by
  intro idxs
  induction idxs with
  | nil => intro h; cases h
  | cons i rest ih =>
    intro h
    simp only [instArgs] at h
    cases hx : objs[i]? with
    | none => rw [hx] at h; cases h
    | some o =>
      rw [hx] at h
      cases hr : instArgs objs rest with
      | error e =>
        rw [hr] at h
        have := Except.error.inj h
        subst this
        exact ih hr
      | ok args => rw [hr] at h; cases h

theorem instArgs_ok_eq (objs : List String) :
    ∀ (idxs : List Nat) (args : List String), instArgs objs idxs = .ok args →
      args = idxs.map (fun i => objs.getD i "") := by
  intro idxs
  induction idxs with
  | nil => intro args h; cases h; rfl
  | cons i rest ih =>
    intro args h
    simp only [instArgs] at h
    cases hx : objs[i]? with
    | none => rw [hx] at h; cases h
    | some o =>
      rw [hx] at h
      cases hr : instArgs objs rest with
      | error e => rw [hr] at h; cases h
      | ok args' =>
        rw [hr] at h
        have : o :: args' = args := Except.ok.inj h
        subst this
        simp [List.map_cons, List.getD, hx, ih args' hr]

/-- `Predicate.__new__` with a problem raises `InvalidAssignment` exactly when
the arity check passes, the predicate is static and the grounded literal is
not a known static literal. -/
theorem predInst_invalid_iff (ps : PredSchema) (args : List String) (pb : Problem) :
    predInst ps args (some pb) = .error .invalidAssignment ↔
      args.length = ps.argTypes.length ∧ ps.name ∈ pb.staticPredicates ∧
        (⟨ps.name, args⟩ : Lit) ∉ pb.staticLiterals := by
  simp only [predInst]
  split_ifs with h1 h2
  · constructor
    · intro h; cases h
    · rintro ⟨hl, -, -⟩; exact absurd hl h1
  · constructor
    · intro _; exact ⟨not_ne_iff.mp h1, h2.1, h2.2⟩
    · intro _; rfl
  · constructor
    · intro h; cases h
    · rintro ⟨-, hs, hn⟩; exact absurd ⟨hs, hn⟩ h2

/-- A static-literal violation means the predicate instantiation cannot
succeed (it raises either `InvalidAssignment` or an arity `ValueError`). -/
theorem predInst_static_violation_not_ok (ps : PredSchema) (args : List String)
    (pb : Problem) (hstat : ps.name ∈ pb.staticPredicates)
    (hnot : (⟨ps.name, args⟩ : Lit) ∉ pb.staticLiterals) :
    ∀ l, predInst ps args (some pb) ≠ .ok l := by
  intro l h
  simp only [predInst] at h
  split_ifs at h with h1 h2
  · exact h2 ⟨hstat, hnot⟩

theorem instLits_invalid_elim (objs : List String) (pb : Problem) :
    ∀ ts : List (PredSchema × List Nat),
      instLits objs (some pb) ts = .error .invalidAssignment →
      ∃ t ∈ ts, ∃ args, instArgs objs t.2 = .ok args ∧
        predInst t.1 args (some pb) = .error .invalidAssignment := by
  intro ts
  induction ts with
  | nil => intro h; cases h
  | cons t rest ih =>
    intro h
    obtain ⟨ps, idxs⟩ := t
    simp only [instLits] at h
    split at h
    next e heq =>
      have he := Except.error.inj h
      subst he
      exact absurd heq (instArgs_no_invalid objs idxs)
    next args heq =>
      split at h
      next e heq2 =>
        have he := Except.error.inj h
        subst he
        exact ⟨(ps, idxs), List.mem_cons_self _ _, args, heq, heq2⟩
      next l heq2 =>
        cases hr : instLits objs (some pb) rest with
        | error e =>
          rw [hr] at h
          simp only [Except.map] at h
          have he := Except.error.inj h
          subst he
          obtain ⟨t', ht', w⟩ := ih hr
          exact ⟨t', List.mem_cons_of_mem _ ht', w⟩
        | ok ls =>
          rw [hr] at h
          simp only [Except.map] at h
          cases h

/-- Instantiating templates without a problem (as the effect templates are)
can only raise an arity `ValueError`, never `InvalidAssignment`. -/
theorem instLits_none_no_invalid (objs : List String) :
    ∀ ts : List (PredSchema × List Nat),
      instLits objs none ts ≠ .error .invalidAssignment := by
  intro ts
  induction ts with
  | nil => intro h; cases h
  | cons t rest ih =>
    intro h
    obtain ⟨ps, idxs⟩ := t
    simp only [instLits] at h
    split at h
    next e heq =>
      have he := Except.error.inj h
      subst he
      exact absurd heq (instArgs_no_invalid objs idxs)
    next args heq =>
      split at h
      next e heq2 =>
        have he := Except.error.inj h
        subst he
        simp only [predInst] at heq2
        split_ifs at heq2
        cases heq2
      next l heq2 =>
        cases hr : instLits objs none rest with
        | error e =>
          rw [hr] at h
          simp only [Except.map] at h
          have he := Except.error.inj h
          subst he
          exact ih hr
        | ok ls =>
          rw [hr] at h
          simp only [Except.map] at h
          cases h

/-- If some precondition template's instantiation violates the
static-literal check, the whole precondition instantiation cannot succeed. -/
theorem instLits_not_ok_of_violation (objs : List String) (pb : Problem) :
    ∀ ts : List (PredSchema × List Nat),
      (∃ t ∈ ts, t.1.name ∈ pb.staticPredicates ∧
        (⟨t.1.name, t.2.map (fun i => objs.getD i "")⟩ : Lit) ∉ pb.staticLiterals) →
      ∀ ls, instLits objs (some pb) ts ≠ .ok ls := by
  intro ts
  induction ts with
  | nil => rintro ⟨t, ht, -⟩; cases ht
  | cons hd rest ih =>
    rintro ⟨t, ht, hstat, hnot⟩ ls h
    obtain ⟨ps, idxs⟩ := hd
    simp only [instLits] at h
    split at h
    next e heq => cases h
    next args heq =>
      split at h
      next e heq2 => cases h
      next l heq2 =>
        rcases List.mem_cons.mp ht with hteq | htrest
        · subst hteq
          have hargs := instArgs_ok_eq objs idxs args heq
          subst hargs
          exact predInst_static_violation_not_ok ps _ pb hstat hnot l heq2
        · cases hr : instLits objs (some pb) rest with
          | error e =>
            rw [hr] at h
            simp only [Except.map] at h
            cases h
          | ok ls' =>
            exact ih ⟨t, htrest, hstat, hnot⟩ ls' hr

/-- `Action.__init__` under a problem raises `InvalidAssignment` (rather than
succeeding) exactly when some precondition template instantiates a static
predicate to a literal missing from the problem's static-literal set—assuming
the grounding call is free of the fatal arity `ValueError`. -/
theorem mkAction_invalid_iff (cls : ActionSchema) (objs : List String) (pb : Problem)
    (hwf : mkAction cls objs (some pb) ≠ .error .valueError) :
    mkAction cls objs (some pb) = .error .invalidAssignment ↔
      ∃ t ∈ cls.pre, t.1.name ∈ pb.staticPredicates ∧
        (⟨t.1.name, t.2.map (fun i => objs.getD i "")⟩ : Lit) ∉ pb.staticLiterals := by
  constructor
  · intro h
    rw [mkAction] at h
    split_ifs at h with hlen
    · cases h
    cases hpre : instLits objs (some pb) cls.pre with
    | error e =>
      cases e with
      | invalidAssignment =>
        obtain ⟨t, ht, args, hargs, hinval⟩ := instLits_invalid_elim objs pb cls.pre hpre
        have hargsEq := instArgs_ok_eq objs t.2 args hargs
        subst hargsEq
        obtain ⟨-, hstat, hnot⟩ := (predInst_invalid_iff _ _ _).mp hinval
        exact ⟨t, ht, hstat, hnot⟩
      | valueError =>
        rw [hpre] at h
        have he := Except.error.inj h
        cases he
    | ok preL =>
      rw [hpre] at h
      cases hadd : instLits objs none cls.add with
      | error e =>
        rw [hadd] at h
        have he := Except.error.inj h
        subst he
        exact absurd hadd (instLits_none_no_invalid objs cls.add)
      | ok addL =>
        rw [hadd] at h
        cases hdel : instLits objs none cls.del with
        | error e =>
          rw [hdel] at h
          have he := Except.error.inj h
          subst he
          exact absurd hdel (instLits_none_no_invalid objs cls.del)
        | ok delL =>
          rw [hdel] at h
          cases h
  · intro hex
    rw [mkAction] at hwf ⊢
    split_ifs at hwf ⊢ with hlen
    · exact absurd rfl hwf
    cases hpre : instLits objs (some pb) cls.pre with
    | error e =>
      rw [hpre] at hwf
      cases e with
      | invalidAssignment => rfl
      | valueError => exact absurd rfl hwf
    | ok preL =>
      exact absurd hpre (instLits_not_ok_of_violation objs pb cls.pre hex preL)

/-- The generator loop of `ground`: when no assignment raises the fatal
`ValueError`, grounding returns exactly the successfully grounded actions,
in enumeration order. -/
theorem groundAux_ok (cls : ActionSchema) (pb : Problem) :
    ∀ asgs : List (List String),
      (∀ asg ∈ asgs, mkAction cls asg (some pb) ≠ .error .valueError) →
      groundAux cls pb asgs =
        .ok (asgs.filterMap (fun asg => (mkAction cls asg (some pb)).toOption)) := by
  intro asgs
  induction asgs with
  | nil => intro _; rfl
  | cons asg rest ih =>
    intro hwf
    have hrest := fun a ha => hwf a (List.mem_cons_of_mem _ ha)
    rw [groundAux]
    cases hm : mkAction cls asg (some pb) with
    | ok a =>
      rw [ih hrest]
      simp [List.filterMap_cons, hm, Except.toOption, Except.map]
    | error e =>
      cases e with
      | invalidAssignment =>
        rw [ih hrest]
        simp [List.filterMap_cons, hm, Except.toOption]
      | valueError => exact absurd hm (hwf asg (List.mem_cons_self _ _))

/-- C5: during grounding, an assignment instantiating a static-predicate
precondition literal outside the problem's known static-literal set raises
`InvalidAssignment` internally; `ground()` catches it and skips that
assignment, never letting it escape, and yields exactly the grounded actions
of the non-raising assignments (in enumeration order). -/
theorem ground_skips_invalid_assignment :
    ∀ (cls : ActionSchema) (pb : Problem),
      (∀ asg ∈ cls.assignments pb, mkAction cls asg (some pb) ≠ .error .valueError) →
      cls.groundE pb = .ok (cls.groundList pb)
      ∧ ∀ asg ∈ cls.assignments pb,
          (mkAction cls asg (some pb) = .error .invalidAssignment ↔
            ∃ t ∈ cls.pre, t.1.name ∈ pb.staticPredicates ∧
              (⟨t.1.name, t.2.map (fun i => asg.getD i "")⟩ : Lit) ∉ pb.staticLiterals) := by
  intro cls pb hwf
  refine ⟨groundAux_ok cls pb (cls.assignments pb) hwf, ?_⟩
  intro asg hasg
  exact mkAction_invalid_iff cls asg pb (hwf asg hasg)

/-- A static predicate `S(x : T)` and an action schema whose only
precondition is `S(x)` (and which has no effects, so `S` is static). -/
def sSchema : PredSchema := ⟨"S", [["T"]]⟩

def useSSchema : ActionSchema := ⟨"UseS", [["T"]], [(sSchema, [0])], [], []⟩

/-- A problem with objects `o1, o2 : T` and known static literal `S(o1)`. -/
def witnessProblem : Problem :=
  mkProblem "W" [sSchema] [useSSchema] [⟨"o1", ["T"]⟩, ⟨"o2", ["T"]⟩] []
    [⟨"S", ["o1"]⟩]

/-- Witness for C5: grounding `UseS` against `witnessProblem` skips the
assignment `[o2]` (whose static literal `S(o2)` is unknown) and yields
exactly the grounding at `[o1]`. -/
theorem ground_skips_invalid_assignment_witness :
    useSSchema.groundE witnessProblem = .ok (useSSchema.groundList witnessProblem)
    ∧ useSSchema.groundList witnessProblem = [⟨"UseS", ["o1"], ∅, ∅, ∅⟩]
    ∧ mkAction useSSchema ["o2"] (some witnessProblem) = .error .invalidAssignment := by
  refine ⟨(ground_skips_invalid_assignment useSSchema witnessProblem (by decide)).1,
    by decide, by decide⟩

/-! ## C9: grounded_actions ordering and determinism -/

theorem charsLe_refl : ∀ as : List Char, charsLe as as = true := by
  intro as
  induction as with
  | nil => rfl
  | cons a as ih => simp [charsLe, lt_irrefl, ih]

/-- A successfully grounded action carries its schema's name (and the
assignment it was grounded at). -/
theorem mkAction_ok_name (cls : ActionSchema) (objs : List String)
    (pr : Option Problem) (a : Action) (h : mkAction cls objs pr = .ok a) :
    a.name = cls.name ∧ a.objects = objs := by
  rw [mkAction] at h
  by_cases hlen : objs.length ≠ cls.varTypes.length
  · rw [if_pos hlen] at h; cases h
  rw [if_neg hlen] at h
  cases hpre : instLits objs pr cls.pre with
  | error e => rw [hpre] at h; cases h
  | ok preL =>
    rw [hpre] at h
    cases hadd : instLits objs none cls.add with
    | error e => rw [hadd] at h; cases h
    | ok addL =>
      rw [hadd] at h
      cases hdel : instLits objs none cls.del with
      | error e => rw [hdel] at h; cases h
      | ok delL =>
        rw [hdel] at h
        cases h
        exact ⟨rfl, rfl⟩

theorem groundList_name (cls : ActionSchema) (p : Problem) :
    ∀ a ∈ cls.groundList p, a.name = cls.name := by
  intro a ha
  obtain ⟨asg, -, hsome⟩ := List.mem_filterMap.mp ha
  cases hm : mkAction cls asg (some p) with
  | error e => rw [hm] at hsome; cases hsome
  | ok b =>
    rw [hm] at hsome
    have hb : b = a := by
      simpa [Except.toOption] using hsome
    subst hb
    exact (mkAction_ok_name cls asg (some p) b hm).1

/-- Flattening per-schema groundings over a name-sorted schema list yields a
name-sorted list of grounded actions. -/
theorem sorted_flatMap_groundList (p : Problem) :
    ∀ schemas : List ActionSchema, List.Sorted schemaNameLe schemas →
      List.Sorted strLe
        ((schemas.flatMap (fun c => c.groundList p)).map Action.name) := by
  intro schemas
  induction schemas with
  | nil => intro _; simp [List.Sorted]
  | cons c rest ih =>
    intro hs
    rw [List.sorted_cons] at hs
    obtain ⟨hc, hrest⟩ := hs
    rw [List.flatMap_cons, List.map_append]
    show List.Pairwise strLe _
    rw [List.pairwise_append]
    refine ⟨?_, ih hrest, ?_⟩
    · -- all names inside one block are equal, and strLe is reflexive
      rw [List.pairwise_map]
      apply List.pairwise_of_forall_mem_list
      intro a ha b hb
      show strLe a.name b.name
      rw [groundList_name c p a ha, groundList_name c p b hb]
      exact charsLe_refl _
    · -- cross: every name in the head block precedes every later name
      intro x hx y hy
      obtain ⟨a, ha, hax⟩ := List.mem_map.mp hx
      obtain ⟨b, hb, hby⟩ := List.mem_map.mp hy
      obtain ⟨d, hd, hbd⟩ := List.mem_flatMap.mp hb
      subst hax
      subst hby
      rw [groundList_name c p a ha, groundList_name d p b hbd]
      exact hc d hd

/-- C9: `grounded_actions` is deterministic and ordered: flattening, over the
action schemas sorted by name (as `Problem.__init_subclass__` stores them),
each schema's grounding in assignment-enumeration order; consequently the
grounded-action names appear in nondecreasing schema-name order.  (Laziness
and caching of `functools.cached_property` are runtime mechanisms outside a
pure embedding; determinism is intrinsic here.) -/
theorem grounded_actions_sorted_by_schema_name :
    ∀ (nm : String) (preds : List PredSchema) (acts : List ActionSchema)
      (objs : List PDDLObj) (goal statics : List Lit),
      (mkProblem nm preds acts objs goal statics).groundedActions =
        (acts.insertionSort schemaNameLe).flatMap
          (fun c => c.groundList (mkProblem nm preds acts objs goal statics))
      ∧ List.Sorted strLe
          (((mkProblem nm preds acts objs goal statics).groundedActions).map Action.name) := by
  intro nm preds acts objs goal statics
  constructor
  · rfl
  · exact sorted_flatMap_groundList _ _
      (List.sorted_insertionSort schemaNameLe acts)

/-! ## C4: PDDLDynamics and InvalidAction (pddlenv/env.py) -/

/-- `EnvState`: an immutable literal set plus its problem; equality is
field equality (the frozen-dataclass semantics of the source). -/
structure EnvState where
  literals : Finset Lit
  problem : Problem
deriving DecidableEq

/-- `EnvState.goal_state()`. -/
def EnvState.goalState (s : EnvState) : Bool := s.problem.goalSatisfied s.literals

/-- A `dm_env.TimeStep` restricted to the data the core produces: whether it
was a termination step, the reward, and the next state. -/
structure TimeStep where
  isLast : Bool
  reward : ℚ
  observation : EnvState
deriving DecidableEq

/-- `PDDLDynamics(discount, use_cost_reward, heuristic)`.  Floats are
modelled as `ℚ`. -/
structure PDDLDynamics where
  discount : ℚ := 1
  useCostReward : Bool := true
  heuristic : Option (Finset Lit → Problem → ℚ) := none

/-- `PDDLDynamics.__call__(state, action)`: raise `InvalidAction` when the
action's preconditions are not satisfied; otherwise apply the action, compute
the reward (cost, goal bonus, optional shaping) and produce a termination or
transition step carrying the new state. -/
def PDDLDynamics.call (d : PDDLDynamics) (s : EnvState) (a : Action) :
    Except Unit TimeStep :=
  if ¬ a.applicable s.literals then .error ()
  else
    let next := a.apply s.literals
    let goalReached := s.problem.goalSatisfied next
    let reward0 : ℚ := (if d.useCostReward then -1 else 0) + (if goalReached then 1 else 0)
    let reward : ℚ :=
      match d.heuristic with
      | some h =>
        reward0 + (h s.literals s.problem -
          (if goalReached then 0 else d.discount * h next s.problem))
      | none => reward0
    .ok ⟨goalReached, reward, ⟨next, s.problem⟩⟩

/-- C4: the transition function raises `InvalidAction` iff the action's
preconditions are not a subset of the state's literals; when it succeeds the
produced observation is exactly `apply`'s result over the unchanged input
state (the embedding is pure, mirroring the source, which only reads
`state.literals` and builds the next state with `dataclasses.replace`). -/
theorem dynamics_invalid_action_iff :
    ∀ (d : PDDLDynamics) (s : EnvState) (a : Action),
      (d.call s a = .error () ↔ ¬ a.preconditions ⊆ s.literals)
      ∧ ∀ ts : TimeStep, d.call s a = .ok ts →
          a.preconditions ⊆ s.literals
          ∧ ts.observation = ⟨a.apply s.literals, s.problem⟩ := by
  intro d s a
  have hiff : (¬ (a.applicable s.literals : Prop)) ↔ ¬ a.preconditions ⊆ s.literals := by
    simp [Action.applicable]
  constructor
  · constructor
    · intro h
      by_cases hap : (¬ (a.applicable s.literals : Prop))
      · exact hiff.mp hap
      · rw [PDDLDynamics.call, if_neg hap] at h
        cases h
    · intro hnsub
      rw [PDDLDynamics.call, if_pos (hiff.mpr hnsub)]
  · intro ts h
    by_cases hap : (¬ (a.applicable s.literals : Prop))
    · rw [PDDLDynamics.call, if_pos hap] at h
      cases h
    · have hsub : a.preconditions ⊆ s.literals := by
        have hap' := not_not.mp hap
        simpa [Action.applicable] using hap'
      rw [PDDLDynamics.call, if_neg hap] at h
      refine ⟨hsub, ?_⟩
      have hts := Except.ok.inj h
      rw [← hts]

/-- A concrete state, action, dynamics and resulting time step over
`witnessProblem`, used to exercise C4. -/
def wEnvState : EnvState := ⟨{⟨"S", ["o1"]⟩}, witnessProblem⟩

def wAddQ : Action := ⟨"A", [], ∅, {⟨"Q", []⟩}, ∅⟩

def wDynamics : PDDLDynamics := ⟨1, true, none⟩

def wTimeStep : TimeStep :=
  ⟨true, -1 + 1, ⟨{⟨"S", ["o1"]⟩, ⟨"Q", []⟩}, witnessProblem⟩⟩

/-- Witness for C4: a concrete successful transition. -/
theorem dynamics_invalid_action_iff_witness :
    wDynamics.call wEnvState wAddQ = .ok wTimeStep
      ∧ wAddQ.preconditions ⊆ wEnvState.literals
      ∧ wTimeStep.observation =
          ⟨wAddQ.apply wEnvState.literals, wEnvState.problem⟩ := by
  have h : wDynamics.call wEnvState wAddQ = .ok wTimeStep := rfl
  obtain ⟨hsub, hobs⟩ :=
    (dynamics_invalid_action_iff wDynamics wEnvState wAddQ).2 wTimeStep h
  exact ⟨h, hsub, hobs⟩

/-! ## Search layer (pddlenv/search): greedy best-first and hill climbing -/

/-- The default `PDDLDynamics()` used by the searches and `generate_path`. -/
def defaultDynamics : PDDLDynamics := ⟨1, true, none⟩

/-- `PDDLDynamics.sample_transitions` restricted to what the searches read:
each valid action together with the observation of its transition (the
next state produced by `apply`, same problem). -/
def successors (s : EnvState) : List (Action × EnvState) :=
  (s.problem.validActions s.literals).map
    (fun a => (a, ⟨a.apply s.literals, s.problem⟩))

/-- The heuristic capability: `(fact set, problem) → float`. -/
def Heuristic : Type := Finset Lit → Problem → ℚ

/-- `search/base.py` `Candidate`: ordered by heuristic value only. -/
structure Candidate where
  heuristic : ℚ
  state : EnvState
deriving DecidableEq

/-- `heapq.heappop`: remove and return a least-heuristic element (the
leftmost minimum; `Candidate.__lt__` compares only the heuristic field). -/
def popMin : List Candidate → Option (Candidate × List Candidate)
  | [] => none
  | c :: cs =>
    match popMin cs with
    | none => some (c, [])
    | some (m, rest) =>
      if c.heuristic ≤ m.heuristic then some (c, cs) else some (m, c :: rest)

/-- The `parents` dict: insertion-ordered association list from `EnvState` to
optional (predecessor, action); doubles as the visited set. -/
abbrev Parents : Type := List (EnvState × Option (EnvState × Action))

/-- Dict lookup `parents.get(state)`. -/
def pfind : Parents → EnvState → Option (Option (EnvState × Action))
  | [], _ => none
  | (k, v) :: rest, s => if k = s then some v else pfind rest s

/-- The `while (stateaction := parents.get(state)) is not None` walk of
`generate_plan`, with the prepend-accumulator realising the final
`plan.reverse()`.  The fuel (`parents.length` at the call site) bounds the
walk; the parents maps the searches build are acyclic, so the bound is never
reached (proved below via `PWF`). -/
def planGo : Nat → EnvState → Parents → List Action → List Action
  | 0, _, _, acc => acc
  | fuel + 1, s, parents, acc =>
    match pfind parents s with
    | some (some (p, act)) => planGo fuel p parents (act :: acc)
    | _ => acc

/-- `generate_plan(end_state, parents)`. -/
def generatePlan (endState : EnvState) (parents : Parents) : List Action :=
  planGo parents.length endState parents []

/-- `generate_path(state, plan)`: replay the plan through `PDDLDynamics()`,
collecting the state sequence; `InvalidAction` propagates. -/
def generatePath : EnvState → List Action → Except Unit (List EnvState)
  | s, [] => .ok [s]
  | s, act :: rest =>
    match defaultDynamics.call s act with
    | .error e => .error e
    | .ok ts => (generatePath ts.observation rest).map (s :: ·)

/-- Python truthiness of `limit and limit <= counter`: `None` and `0` are
falsy, otherwise compare. -/
def limitHit (limit : Option Nat) (counter : Nat) : Bool :=
  match limit with
  | none => false
  | some n => if n = 0 then false else decide (n ≤ counter)

/-- Result of the inner `for action, next_state in ...` loop: either an early
`return plan`, or the updated heap/parents/evaluation counter. -/
inductive InnerRes
  | found (plan : List Action)
  | cont (heap : List Candidate) (parents : Parents) (evaluated : Nat)

/-- The inner loop of `GreedyBestFirst.search`: per successor, an optional
evaluation-limit break, the visited check (recording the parent and pushing
the candidate with its heuristic value), then the goal check returning the
reconstructed plan immediately. -/
def greedyInner (h : Heuristic) (pb : Problem) (evalLimit : Option Nat) (cur : EnvState) :
    List (Action × EnvState) → List Candidate → Parents → Nat → InnerRes
  | [], heap, parents, ev => .cont heap parents ev
  | (act, ns) :: rest, heap, parents, ev =>
    if limitHit evalLimit ev then .cont heap parents ev
    else
      let parents' :=
        if (pfind parents ns).isSome then parents
        else parents ++ [(ns, some (cur, act))]
      let heap' :=
        if (pfind parents ns).isSome then heap
        else heap ++ [⟨h ns.literals pb, ns⟩]
      if pb.goalSatisfied ns.literals then .found (generatePlan ns parents')
      else greedyInner h pb evalLimit cur rest heap' parents' (ev + 1)

/-- The outer `while heap:` loop of `GreedyBestFirst.search` with an explicit
fuel (the Python loop terminates because the reachable state space is finite;
fuel exhaustion returns `None` like a hit limit). -/
def greedyGo (h : Heuristic) (pb : Problem) (evalLimit expLimit : Option Nat) :
    Nat → List Candidate → Parents → Nat → Nat → Option (List Action)
  | 0, _, _, _, _ => none
  | fuel + 1, heap, parents, exp, ev =>
    match popMin heap with
    | none => none
    | some (c, rest) =>
      if limitHit expLimit exp then none
      else
        match greedyInner h pb evalLimit c.state (successors c.state) rest parents ev with
        | .found plan => some plan
        | .cont heap' parents' ev' =>
          greedyGo h pb evalLimit expLimit fuel heap' parents' (exp + 1) ev'

/-- `GreedyBestFirst(heuristic).search(state, evaluation_limit,
expansion_limit)`: frontier seeded with `Candidate(0., state)`, parents map
seeded with `{state: None}`. -/
def greedySearch (h : Heuristic) (s0 : EnvState) (evalLimit expLimit : Option Nat)
    (fuel : Nat) : Option (List Action) :=
  greedyGo h s0.problem evalLimit expLimit fuel [⟨0, s0⟩] [(s0, none)] 0 0

/-- The inner loop of `HillClimbing.search`: like the greedy one, but the
candidate is pushed only when `detect_minima` is off or its heuristic value
does not exceed the popped node's value. -/
def hcInner (h : Heuristic) (pb : Problem) (evalLimit : Option Nat) (detect : Bool)
    (cur : EnvState) (value : ℚ) :
    List (Action × EnvState) → List Candidate → Parents → Nat → InnerRes
  | [], heap, parents, ev => .cont heap parents ev
  | (act, ns) :: rest, heap, parents, ev =>
    if limitHit evalLimit ev then .cont heap parents ev
    else
      let parents' :=
        if (pfind parents ns).isSome then parents
        else parents ++ [(ns, some (cur, act))]
      let heap' :=
        if (pfind parents ns).isSome then heap
        else if detect = false ∨ h ns.literals pb ≤ value
          then heap ++ [⟨h ns.literals pb, ns⟩] else heap
      if pb.goalSatisfied ns.literals then .found (generatePlan ns parents')
      else hcInner h pb evalLimit detect cur value rest heap' parents' (ev + 1)

/-- The outer loop of `HillClimbing.search`: after popping a node the
frontier is reset to `[]` (`heap = []  # hill climbing --- forget
everything`) before the node is expanded. -/
def hcGo (h : Heuristic) (pb : Problem) (evalLimit expLimit : Option Nat) (detect : Bool) :
    Nat → List Candidate → Parents → Nat → Nat → Option (List Action)
  | 0, _, _, _, _ => none
  | fuel + 1, heap, parents, exp, ev =>
    match popMin heap with
    | none => none
    | some (c, _rest) =>
      if limitHit expLimit exp then none
      else
        match hcInner h pb evalLimit detect c.state c.heuristic
            (successors c.state) [] parents ev with
        | .found plan => some plan
        | .cont heap' parents' ev' =>
          hcGo h pb evalLimit expLimit detect fuel heap' parents' (exp + 1) ev'

/-- `HillClimbing(heuristic, detect_minima).search(state, evaluation_limit,
expansion_limit)`. -/
def hcSearch (h : Heuristic) (s0 : EnvState) (evalLimit expLimit : Option Nat)
    (detect : Bool) (fuel : Nat) : Option (List Action) :=
  hcGo h s0.problem evalLimit expLimit detect fuel [⟨0, s0⟩] [(s0, none)] 0 0

/-! ## C8: HillClimbing forgets the frontier on every expansion -/

/-- Elements of the heap an inner hill-climbing pass returns either were
already in the starting heap or are successors pushed during this pass. -/
theorem hcInner_heap_mem (h : Heuristic) (pb : Problem) (eL : Option Nat)
    (detect : Bool) (cur : EnvState) (value : ℚ) :
    ∀ (list : List (Action × EnvState)) (heap : List Candidate) (parents : Parents)
      (ev : Nat) (heap' : List Candidate) (parents' : Parents) (ev' : Nat),
      hcInner h pb eL detect cur value list heap parents ev = .cont heap' parents' ev' →
      ∀ cand ∈ heap', cand ∈ heap ∨ cand.state ∈ list.map Prod.snd := by
  intro list
  induction list with
  | nil =>
    intro heap parents ev heap' parents' ev' hstep cand hcand
    cases hstep
    exact Or.inl hcand
  | cons pr rest ih =>
    intro heap parents ev heap' parents' ev' hstep cand hcand
    obtain ⟨act, ns⟩ := pr
    simp only [hcInner] at hstep
    by_cases hlim : limitHit eL ev = true
    · rw [if_pos hlim] at hstep
      cases hstep
      exact Or.inl hcand
    · rw [if_neg hlim] at hstep
      by_cases hgoal : pb.goalSatisfied ns.literals = true
      · rw [if_pos hgoal] at hstep
        cases hstep
      · rw [if_neg hgoal] at hstep
        have hmem := ih _ _ _ _ _ _ hstep cand hcand
        rcases hmem with hh | hs
        · by_cases hvis : (pfind parents ns).isSome = true
          · rw [if_pos hvis] at hh
            exact Or.inl hh
          · rw [if_neg hvis] at hh
            by_cases hdet : (detect = false ∨ h ns.literals pb ≤ value)
            · rw [if_pos hdet] at hh
              rcases List.mem_append.mp hh with hh' | hh'
              · exact Or.inl hh'
              · right
                rcases List.mem_singleton.mp hh' with rfl
                simp
            · rw [if_neg hdet] at hh
              exact Or.inl hh
        · right
          rw [List.map_cons]
          exact List.mem_cons_of_mem _ hs

/-- C8: immediately after a node is popped the frontier is reset, so the next
outer-loop iteration starts from exactly the candidates pushed while
expanding that one node: the search result is unchanged if the rest of the
popped heap is discarded, and every frontier element entering the next
iteration is a successor of the popped node. -/
theorem hc_frontier_reset :
    ∀ (h : Heuristic) (pb : Problem) (eL xL : Option Nat) (detect : Bool) (fuel : Nat)
      (heap : List Candidate) (parents : Parents) (exp ev : Nat)
      (c : Candidate) (rest : List Candidate),
      popMin heap = some (c, rest) →
      (hcGo h pb eL xL detect (fuel + 1) heap parents exp ev =
        hcGo h pb eL xL detect (fuel + 1) [c] parents exp ev)
      ∧ ∀ (heap' : List Candidate) (parents' : Parents) (ev' : Nat),
          hcInner h pb eL detect c.state c.heuristic (successors c.state) [] parents ev =
            .cont heap' parents' ev' →
          ∀ cand ∈ heap', cand.state ∈ (successors c.state).map Prod.snd := by
  intro h pb eL xL detect fuel heap parents exp ev c rest hpop
  constructor
  · simp only [hcGo]
    rw [hpop]
    rfl
  · intro heap' parents' ev' hstep cand hcand
    rcases hcInner_heap_mem h pb eL detect c.state c.heuristic _ _ _ _ _ _ _
      hstep cand hcand with hh | hs
    · cases hh
    · exact hs

/-- Two concrete states over `witnessProblem` used as C8 heap entries. -/
def hcStateA : EnvState := ⟨∅, witnessProblem⟩

def hcStateB : EnvState := ⟨{⟨"S", ["o1"]⟩}, witnessProblem⟩

/-- Witness for C8: a concrete two-element frontier whose leftover entry is
discarded without changing the search result. -/
theorem hc_frontier_reset_witness :
    hcGo (fun _ _ => 0) witnessProblem none none false 1
        [⟨2, hcStateB⟩, ⟨1, hcStateA⟩] [(hcStateA, none)] 0 0 =
      hcGo (fun _ _ => 0) witnessProblem none none false 1
        [⟨1, hcStateA⟩] [(hcStateA, none)] 0 0 :=
  (hc_frontier_reset (fun _ _ => 0) witnessProblem none none false 0
    [⟨2, hcStateB⟩, ⟨1, hcStateA⟩] [(hcStateA, none)] 0 0 ⟨1, hcStateA⟩
    [⟨2, hcStateB⟩] (by decide)).1

/-! ## C7: greedy best-first search soundness -/

/-- The transition relation induced by `sample_transitions`. -/
inductive Reachable (s : EnvState) : EnvState → Prop
  | refl : Reachable s s
  | step {t u : EnvState} {act : Action} (hr : Reachable s t)
      (hs : (act, u) ∈ successors t) : Reachable s u

theorem successors_mem_elim {t : EnvState} {act : Action} {ns : EnvState}
    (h : (act, ns) ∈ successors t) :
    act.applicable t.literals = true ∧ ns = ⟨act.apply t.literals, t.problem⟩ := by
  obtain ⟨a, ha, heq⟩ := List.mem_map.mp h
  injection heq with h1 h2
  subst h1
  exact ⟨(List.mem_filter.mp ha).2, h2.symm⟩

theorem call_ok_observation (s : EnvState) (act : Action)
    (hap : act.applicable s.literals = true) :
    ∃ ts : TimeStep, defaultDynamics.call s act = .ok ts ∧
      ts.observation = ⟨act.apply s.literals, s.problem⟩ := by
  rw [PDDLDynamics.call, if_neg (by simp [hap])]
  exact ⟨_, rfl, rfl⟩

theorem generatePath_head :
    ∀ (plan : List Action) (s : EnvState) (path : List EnvState),
      generatePath s plan = .ok path → path.head? = some s := by
  intro plan
  induction plan with
  | nil =>
    intro s path h
    cases h
    rfl
  | cons act rest ih =>
    intro s path h
    simp only [generatePath] at h
    split at h
    next e heq => cases h
    next ts heq =>
      cases hr : generatePath ts.observation rest with
      | error e => rw [hr] at h; simp only [Except.map] at h; cases h
      | ok path' =>
        rw [hr] at h
        simp only [Except.map] at h
        have := Except.ok.inj h
        subst this
        rfl

theorem generatePath_append_step :
    ∀ (plan : List Action) (s : EnvState) (path : List EnvState) (t : EnvState)
      (act : Action) (ns : EnvState),
      generatePath s plan = .ok path → path.getLast? = some t →
      (act, ns) ∈ successors t →
      generatePath s (plan ++ [act]) = .ok (path ++ [ns]) := by
  intro plan
  induction plan with
  | nil =>
    intro s path t act ns hpath hlast hsucc
    cases hpath
    have ht : t = s := by
      simpa using hlast.symm
    subst ht
    obtain ⟨hap, hns⟩ := successors_mem_elim hsucc
    obtain ⟨ts, hcall, hobs⟩ := call_ok_observation t act hap
    simp only [List.nil_append, generatePath, hcall, hobs, ← hns, Except.map]
    rfl
  | cons a rest ih =>
    intro s path t act ns hpath hlast hsucc
    simp only [generatePath] at hpath
    split at hpath
    next e heq => cases hpath
    next ts heq =>
      cases hr : generatePath ts.observation rest with
      | error e => rw [hr] at hpath; simp only [Except.map] at hpath; cases hpath
      | ok path' =>
        rw [hr] at hpath
        simp only [Except.map] at hpath
        have hpatheq := Except.ok.inj hpath
        subst hpatheq
        have hne : path' ≠ [] := by
          intro hnil
          rw [hnil] at hr
          have := generatePath_head rest ts.observation [] hr
          cases this
        have hlast' : path'.getLast? = some t := by
          cases path' with
          | nil => exact absurd rfl hne
          | cons b l => rwa [List.getLast?_cons_cons] at hlast
        have hstep := ih ts.observation path' t act ns hr hlast' hsucc
        simp only [List.cons_append, generatePath, heq, Except.map]
        have hstep' : generatePath ts.observation (rest.append [act]) =
            Except.ok (path' ++ [ns]) := hstep
        rw [hstep']

theorem pfind_append_some {ps : Parents} {s : EnvState}
    {v : Option (EnvState × Action)} (h : pfind ps s = some v) (l : Parents) :
    pfind (ps ++ l) s = some v := by
  induction ps with
  | nil => cases h
  | cons e rest ih =>
    obtain ⟨k, w⟩ := e
    simp only [pfind] at h ⊢
    by_cases hk : k = s
    · rwa [if_pos hk] at h ⊢
    · rw [if_neg hk] at h ⊢
      exact ih h

theorem pfind_append_none {ps : Parents} {s : EnvState}
    (h : pfind ps s = none) (l : Parents) :
    pfind (ps ++ l) s = pfind l s := by
  induction ps with
  | nil => rfl
  | cons e rest ih =>
    obtain ⟨k, w⟩ := e
    simp only [pfind] at h ⊢
    by_cases hk : k = s
    · rw [if_pos hk] at h; cases h
    · rw [if_neg hk] at h ⊢
      exact ih h

/-- The invariant of the parents maps the searches build: starting from the
seed `{initial state: None}`, each recorded entry points back to an already
recorded predecessor through one of its successors.  The constructors are
exactly the two ways the source code touches `parents`. -/
inductive PWF (s0 : EnvState) : Parents → Prop
  | base : PWF s0 [(s0, none)]
  | push (ps : Parents) (cur : EnvState) (act : Action) (ns : EnvState)
      (hps : PWF s0 ps)
      (hcur : (pfind ps cur).isSome = true)
      (hns : pfind ps ns = none)
      (hsucc : (act, ns) ∈ successors cur) :
      PWF s0 (ps ++ [(ns, some (cur, act))])

theorem pwf_parent_keys {s0 : EnvState} {ps : Parents} (hwf : PWF s0 ps) :
    ∀ (s p : EnvState) (act : Action),
      pfind ps s = some (some (p, act)) → (pfind ps p).isSome = true := by
  induction hwf with
  | base =>
    intro s p act h
    simp only [pfind] at h
    by_cases h0 : s0 = s
    · rw [if_pos h0] at h; cases h
    · rw [if_neg h0] at h; cases h
  | push ps cur act₀ ns hps hcur hns hsucc ih =>
    intro s p act h
    by_cases hsold : pfind ps s = none
    · rw [pfind_append_none hsold] at h
      simp only [pfind] at h
      by_cases hnss : ns = s
      · rw [if_pos hnss] at h
        have hpe := Option.some.inj (Option.some.inj h)
        injection hpe with hp hact
        subst hp
        obtain ⟨w, hw⟩ := Option.isSome_iff_exists.mp hcur
        rw [pfind_append_some hw]
        rfl
      · rw [if_neg hnss] at h; cases h
    · obtain ⟨w, hw⟩ := Option.ne_none_iff_exists'.mp hsold
      rw [pfind_append_some hw] at h
      have hweq := Option.some.inj h
      subst hweq
      have := ih s p act hw
      obtain ⟨u, hu⟩ := Option.isSome_iff_exists.mp this
      rw [pfind_append_some hu]
      rfl

theorem pwf_reachable {s0 : EnvState} {ps : Parents} (hwf : PWF s0 ps) :
    ∀ (s : EnvState) (v : Option (EnvState × Action)),
      pfind ps s = some v → Reachable s0 s := by
  induction hwf with
  | base =>
    intro s v h
    simp only [pfind] at h
    by_cases h0 : s0 = s
    · subst h0; exact Reachable.refl
    · rw [if_neg h0] at h; cases h
  | push ps cur act₀ ns hps hcur hns hsucc ih =>
    intro s v h
    by_cases hsold : pfind ps s = none
    · rw [pfind_append_none hsold] at h
      simp only [pfind] at h
      by_cases hnss : ns = s
      · subst hnss
        obtain ⟨w, hw⟩ := Option.isSome_iff_exists.mp hcur
        exact Reachable.step (ih cur w hw) hsucc
      · rw [if_neg hnss] at h; cases h
    · obtain ⟨w, hw⟩ := Option.ne_none_iff_exists'.mp hsold
      exact ih s w hw

theorem planGo_acc :
    ∀ (fuel : Nat) (s : EnvState) (ps : Parents) (acc : List Action),
      planGo fuel s ps acc = planGo fuel s ps [] ++ acc := by
  intro fuel
  induction fuel with
  | zero => intro s ps acc; rfl
  | succ f ih =>
    intro s ps acc
    simp only [planGo]
    cases hp : pfind ps s with
    | none => rfl
    | some v =>
      cases v with
      | none => rfl
      | some pa =>
        obtain ⟨p, act⟩ := pa
        dsimp only
        rw [ih p ps (act :: acc), ih p ps [act], List.append_assoc]
        rfl

theorem planGo_stable (ps : Parents) (e : EnvState × Option (EnvState × Action))
    (hpk : ∀ (s p : EnvState) (act : Action),
      pfind ps s = some (some (p, act)) → (pfind ps p).isSome = true) :
    ∀ (fuel : Nat) (s : EnvState) (acc : List Action),
      (pfind ps s).isSome = true →
      planGo fuel s (ps ++ [e]) acc = planGo fuel s ps acc := by
  intro fuel
  induction fuel with
  | zero => intro s acc _; rfl
  | succ f ih =>
    intro s acc hs
    obtain ⟨v, hv⟩ := Option.isSome_iff_exists.mp hs
    simp only [planGo]
    rw [pfind_append_some hv, hv]
    cases v with
    | none => rfl
    | some pa =>
      obtain ⟨p, act⟩ := pa
      exact ih p (act :: acc) (hpk s p act hv)

/-- Replaying the plan that `generate_plan` reconstructs for any recorded
state succeeds and ends in that state. -/
theorem pwf_replay {s0 : EnvState} {ps : Parents} (hwf : PWF s0 ps) :
    ∀ (s : EnvState) (v : Option (EnvState × Action)),
      pfind ps s = some v →
      ∀ fuel : Nat, ps.length ≤ fuel →
        ∃ path, generatePath s0 (planGo fuel s ps []) = .ok path ∧
          path.getLast? = some s := by
  induction hwf with
  | base =>
    intro s v h fuel hfuel
    simp only [pfind] at h
    by_cases h0 : s0 = s
    · subst h0
      have hv : v = none := by
        rw [if_pos rfl] at h
        exact (Option.some.inj h).symm
      cases fuel with
      | zero => simp at hfuel
      | succ f =>
        refine ⟨[s0], ?_, rfl⟩
        simp only [planGo, pfind, if_pos rfl]
        rfl
    · rw [if_neg h0] at h; cases h
  | push ps cur act₀ ns hps hcur hns hsucc ih =>
    intro s v h fuel hfuel
    have hpk := pwf_parent_keys hps
    have hlen : ps.length + 1 ≤ fuel := by
      simpa using hfuel
    by_cases hsold : pfind ps s = none
    · -- the freshly appended key
      rw [pfind_append_none hsold] at h
      simp only [pfind] at h
      by_cases hnss : ns = s
      · subst hnss
        cases fuel with
        | zero => omega
        | succ f =>
          have hfind : pfind (ps ++ [(ns, some (cur, act₀))]) ns =
              some (some (cur, act₀)) := by
            rw [pfind_append_none hns]
            simp [pfind]
          simp only [planGo, hfind]
          rw [planGo_stable ps _ hpk f cur [act₀] hcur, planGo_acc]
          obtain ⟨w, hw⟩ := Option.isSome_iff_exists.mp hcur
          obtain ⟨path, hpath, hlast⟩ := ih cur w hw f (by omega)
          refine ⟨path ++ [ns], ?_, ?_⟩
          · exact generatePath_append_step _ s0 path cur act₀ ns hpath hlast hsucc
          · exact List.getLast?_concat path
      · rw [if_neg hnss] at h; cases h
    · obtain ⟨w, hw⟩ := Option.ne_none_iff_exists'.mp hsold
      rw [planGo_stable ps _ hpk fuel s []
        (Option.isSome_iff_exists.mpr ⟨w, hw⟩)]
      exact ih s w hw fuel (by omega)

theorem popMin_mem :
    ∀ (heap : List Candidate) (c : Candidate) (rest : List Candidate),
      popMin heap = some (c, rest) → c ∈ heap ∧ ∀ x ∈ rest, x ∈ heap := by
  intro heap
  induction heap with
  | nil => intro c rest h; cases h
  | cons c0 cs ih =>
    intro c rest h
    simp only [popMin] at h
    cases hm : popMin cs with
    | none =>
      rw [hm] at h
      have := Option.some.inj h
      injection this with h1 h2
      subst h1; subst h2
      exact ⟨List.mem_cons_self _ _, by intro x hx; cases hx⟩
    | some mr =>
      obtain ⟨m, r⟩ := mr
      rw [hm] at h
      dsimp only at h
      obtain ⟨hmem, hrest⟩ := ih m r hm
      by_cases hle : c0.heuristic ≤ m.heuristic
      · rw [if_pos hle] at h
        have := Option.some.inj h
        injection this with h1 h2
        subst h1; subst h2
        exact ⟨List.mem_cons_self _ _, fun x hx => List.mem_cons_of_mem _ hx⟩
      · rw [if_neg hle] at h
        have := Option.some.inj h
        injection this with h1 h2
        subst h1; subst h2
        refine ⟨List.mem_cons_of_mem _ hmem, ?_⟩
        intro x hx
        rcases List.mem_cons.mp hx with rfl | hx'
        · exact List.mem_cons_self _ _
        · exact List.mem_cons_of_mem _ (hrest x hx')

/-- Invariant preservation and found-plan characterisation for the greedy
inner loop. -/
theorem greedyInner_inv (h : Heuristic) (pb : Problem) (eL : Option Nat)
    (s0 cur : EnvState) :
    ∀ (list : List (Action × EnvState)) (heap : List Candidate)
      (parents : Parents) (ev : Nat),
      PWF s0 parents →
      (∀ c ∈ heap, (pfind parents c.state).isSome = true) →
      (pfind parents cur).isSome = true →
      (∀ x ∈ list, x ∈ successors cur) →
      (∀ plan, greedyInner h pb eL cur list heap parents ev = .found plan →
        ∃ (g : EnvState) (parents' : Parents), PWF s0 parents' ∧
          (pfind parents' g).isSome = true ∧
          pb.goalSatisfied g.literals = true ∧ plan = generatePlan g parents')
      ∧ (∀ heap' parents' ev',
          greedyInner h pb eL cur list heap parents ev = .cont heap' parents' ev' →
          PWF s0 parents' ∧
            (∀ c ∈ heap', (pfind parents' c.state).isSome = true)) := by
  intro list
  induction list with
  | nil =>
    intro heap parents ev hP hK hcur hlist
    constructor
    · intro plan hfound; cases hfound
    · intro heap' parents' ev' hcont
      cases hcont
      exact ⟨hP, hK⟩
  | cons pr rest ih =>
    intro heap parents ev hP hK hcur hlist
    obtain ⟨act, ns⟩ := pr
    have hsuccmem : (act, ns) ∈ successors cur := hlist _ (List.mem_cons_self _ _)
    have hlist' : ∀ x ∈ rest, x ∈ successors cur :=
      fun x hx => hlist x (List.mem_cons_of_mem _ hx)
    by_cases hlim : limitHit eL ev = true
    · constructor
      · intro plan hfound
        simp only [greedyInner, if_pos hlim] at hfound
        cases hfound
      · intro heap' parents' ev' hcont
        simp only [greedyInner, if_pos hlim] at hcont
        cases hcont
        exact ⟨hP, hK⟩
    · -- establish the invariant for the (possibly) updated heap and parents
      by_cases hvis : (pfind parents ns).isSome = true
      · have hP' : PWF s0 parents := hP
        by_cases hgoal : pb.goalSatisfied ns.literals = true
        · constructor
          · intro plan hfound
            simp only [greedyInner, if_neg hlim, if_pos hvis, if_pos hgoal] at hfound
            cases hfound
            exact ⟨ns, parents, hP, hvis, hgoal, rfl⟩
          · intro heap' parents' ev' hcont
            simp only [greedyInner, if_neg hlim, if_pos hvis, if_pos hgoal] at hcont
            cases hcont
        · have hrec := ih heap parents (ev + 1) hP hK hcur hlist'
          constructor
          · intro plan hfound
            simp only [greedyInner, if_neg hlim, if_pos hvis, if_neg hgoal] at hfound
            exact hrec.1 plan hfound
          · intro heap' parents' ev' hcont
            simp only [greedyInner, if_neg hlim, if_pos hvis, if_neg hgoal] at hcont
            exact hrec.2 heap' parents' ev' hcont
      · -- unvisited: a new parents entry and a new candidate
        have hnsnone : pfind parents ns = none := by
          cases hx : pfind parents ns with
          | none => rfl
          | some w => rw [hx] at hvis; simp at hvis
        have hP' : PWF s0 (parents ++ [(ns, some (cur, act))]) :=
          PWF.push parents cur act ns hP hcur hnsnone hsuccmem
        have hnskey : (pfind (parents ++ [(ns, some (cur, act))]) ns).isSome = true := by
          rw [pfind_append_none hnsnone]
          simp [pfind]
        have hcur' : (pfind (parents ++ [(ns, some (cur, act))]) cur).isSome = true := by
          obtain ⟨w, hw⟩ := Option.isSome_iff_exists.mp hcur
          rw [pfind_append_some hw]
          rfl
        have hK' : ∀ c ∈ heap ++ [⟨h ns.literals pb, ns⟩],
            (pfind (parents ++ [(ns, some (cur, act))]) c.state).isSome = true := by
          intro c hc
          rcases List.mem_append.mp hc with hc' | hc'
          · obtain ⟨w, hw⟩ := Option.isSome_iff_exists.mp (hK c hc')
            rw [pfind_append_some hw]
            rfl
          · rcases List.mem_singleton.mp hc' with rfl
            exact hnskey
        by_cases hgoal : pb.goalSatisfied ns.literals = true
        · constructor
          · intro plan hfound
            simp only [greedyInner, if_neg hlim, if_neg hvis, if_pos hgoal] at hfound
            cases hfound
            exact ⟨ns, parents ++ [(ns, some (cur, act))], hP', hnskey, hgoal, rfl⟩
          · intro heap' parents' ev' hcont
            simp only [greedyInner, if_neg hlim, if_neg hvis, if_pos hgoal] at hcont
            cases hcont
        · have hrec := ih (heap ++ [⟨h ns.literals pb, ns⟩])
            (parents ++ [(ns, some (cur, act))]) (ev + 1) hP' hK' hcur' hlist'
          constructor
          · intro plan hfound
            simp only [greedyInner, if_neg hlim, if_neg hvis, if_neg hgoal] at hfound
            exact hrec.1 plan hfound
          · intro heap' parents' ev' hcont
            simp only [greedyInner, if_neg hlim, if_neg hvis, if_neg hgoal] at hcont
            exact hrec.2 heap' parents' ev' hcont

/-- Invariant-based soundness of the greedy outer loop. -/
theorem greedyGo_sound (h : Heuristic) (pb : Problem) (eL xL : Option Nat)
    (s0 : EnvState) :
    ∀ (fuel : Nat) (heap : List Candidate) (parents : Parents) (exp ev : Nat)
      (plan : List Action),
      PWF s0 parents →
      (∀ c ∈ heap, (pfind parents c.state).isSome = true) →
      greedyGo h pb eL xL fuel heap parents exp ev = some plan →
      ∃ (g : EnvState) (parents' : Parents), PWF s0 parents' ∧
        (pfind parents' g).isSome = true ∧
        pb.goalSatisfied g.literals = true ∧ plan = generatePlan g parents' := by
  intro fuel
  induction fuel with
  | zero => intro heap parents exp ev plan _ _ hres; cases hres
  | succ f ih =>
    intro heap parents exp ev plan hP hK hres
    simp only [greedyGo] at hres
    cases hpop : popMin heap with
    | none => rw [hpop] at hres; cases hres
    | some cr =>
      obtain ⟨c, rest⟩ := cr
      rw [hpop] at hres
      dsimp only at hres
      by_cases hlim : limitHit xL exp = true
      · rw [if_pos hlim] at hres; cases hres
      · rw [if_neg hlim] at hres
        obtain ⟨hcmem, hrestmem⟩ := popMin_mem heap c rest hpop
        have hcurkey : (pfind parents c.state).isSome = true := hK c hcmem
        have hrestkeys : ∀ x ∈ rest, (pfind parents x.state).isSome = true :=
          fun x hx => hK x (hrestmem x hx)
        have hinv := greedyInner_inv h pb eL s0 c.state (successors c.state)
          rest parents ev hP hrestkeys hcurkey (fun x hx => hx)
        cases hstep : greedyInner h pb eL c.state (successors c.state) rest parents ev with
        | found plan' =>
          rw [hstep] at hres
          have := Option.some.inj hres
          subst this
          exact hinv.1 plan' hstep
        | cont heap' parents' ev' =>
          rw [hstep] at hres
          obtain ⟨hP', hK'⟩ := hinv.2 heap' parents' ev' hstep
          exact ih heap' parents' (exp + 1) ev' plan hP' hK' hres

/-- C7: whenever `GreedyBestFirst.search` returns a plan, replaying it with
`generate_path` from the same initial state succeeds and the final state of
the replay satisfies the problem's goal (and is reachable); and when no
reachable state satisfies the goal, the search returns `None` (whether the
frontier empties, a limit is hit, or the fuel runs out). -/
theorem greedy_search_plan_reaches_goal :
    (∀ (h : Heuristic) (eL xL : Option Nat) (s0 : EnvState) (fuel : Nat)
      (plan : List Action),
      greedySearch h s0 eL xL fuel = some plan →
      ∃ (path : List EnvState) (g : EnvState),
        generatePath s0 plan = .ok path ∧ path.getLast? = some g ∧
        s0.problem.goalSatisfied g.literals = true ∧ Reachable s0 g)
    ∧ ∀ (h : Heuristic) (eL xL : Option Nat) (s0 : EnvState) (fuel : Nat),
        (∀ t, Reachable s0 t → s0.problem.goalSatisfied t.literals = false) →
        greedySearch h s0 eL xL fuel = none := by
  have main : ∀ (h : Heuristic) (eL xL : Option Nat) (s0 : EnvState) (fuel : Nat)
      (plan : List Action), greedySearch h s0 eL xL fuel = some plan →
      ∃ (path : List EnvState) (g : EnvState),
        generatePath s0 plan = .ok path ∧ path.getLast? = some g ∧
        s0.problem.goalSatisfied g.literals = true ∧ Reachable s0 g := by
    intro h eL xL s0 fuel plan hres
    have hP0 : PWF s0 [(s0, none)] := PWF.base
    have hK0 : ∀ c ∈ [(⟨0, s0⟩ : Candidate)],
        (pfind [(s0, none)] c.state).isSome = true := by
      intro c hc
      rcases List.mem_singleton.mp hc with rfl
      simp [pfind]
    obtain ⟨g, parents', hP', hkey, hgoal, hplan⟩ :=
      greedyGo_sound h s0.problem eL xL s0 fuel _ _ 0 0 plan hP0 hK0 hres
    obtain ⟨v, hv⟩ := Option.isSome_iff_exists.mp hkey
    obtain ⟨path, hpath, hlast⟩ :=
      pwf_replay hP' g v hv parents'.length (le_refl _)
    subst hplan
    exact ⟨path, g, hpath, hlast, hgoal, pwf_reachable hP' g v hv⟩
  refine ⟨main, ?_⟩
  intro h eL xL s0 fuel hnone
  cases hres : greedySearch h s0 eL xL fuel with
  | none => rfl
  | some plan =>
    obtain ⟨path, g, -, -, hgoal, hreach⟩ := main h eL xL s0 fuel plan hres
    rw [hnone g hreach] at hgoal
    cases hgoal

/-! The toy Cat/Hat/House domain from the repository's test fixtures
(`tests/conftest.py`), used as concrete input for witnesses. -/

def inP : PredSchema := ⟨"In", [["Cat"], ["Hat"]]⟩

def outP : PredSchema := ⟨"Out", [["Cat"], ["House"]]⟩

def cleanP : PredSchema := ⟨"Clean", [["House"]]⟩

def dirtyP : PredSchema := ⟨"Dirty", [["House"]]⟩

def happyP : PredSchema := ⟨"ParentsHappy", [["House"]]⟩

def cleanHouseS : ActionSchema :=
  ⟨"CleanHouse", [["Cat"], ["House"]],
    [(dirtyP, [1]), (outP, [0, 1])],
    [(happyP, [1]), (cleanP, [1])],
    [(dirtyP, [1])]⟩

def letInS : ActionSchema :=
  ⟨"LetIn", [["Cat"], ["Hat"], ["House"]],
    [(outP, [0, 2]), (inP, [0, 1])],
    [(dirtyP, [2])],
    [(happyP, [2]), (cleanP, [2]), (outP, [0, 2])]⟩

def removeCatS : ActionSchema :=
  ⟨"RemoveCat", [["Cat"], ["Hat"]],
    [(inP, [0, 1])],
    [],
    [(inP, [0, 1])]⟩

def dummyProblem : Problem :=
  mkProblem "DummyDomain" [inP, outP, cleanP, dirtyP, happyP]
    [cleanHouseS, letInS, removeCatS]
    [⟨"cat", ["Cat"]⟩, ⟨"hat", ["Hat"]⟩, ⟨"house", ["House"]⟩]
    [⟨"Clean", ["house"]⟩] [⟨"In", ["cat", "hat"]⟩]

def dummyInit : EnvState :=
  ⟨{⟨"Dirty", ["house"]⟩, ⟨"Out", ["cat", "house"]⟩}, dummyProblem⟩

/-- The goal state reached by replaying `CleanHouse(cat, house)` from
`dummyInit`. -/
def gWitState : EnvState :=
  ⟨{⟨"Out", ["cat", "house"]⟩, ⟨"ParentsHappy", ["house"]⟩,
    ⟨"Clean", ["house"]⟩}, dummyProblem⟩

/-- Witness for C7: on the toy domain the greedy search finds the plan
`[CleanHouse(cat, house)]` and its replay ends in a goal state. -/
theorem greedy_search_plan_reaches_goal_witness :
    greedySearch (fun _ _ => 0) dummyInit none none 1 = some [wCleanAction]
    ∧ generatePath dummyInit [wCleanAction] = .ok [dummyInit, gWitState]
    ∧ dummyInit.problem.goalSatisfied gWitState.literals = true := by
  have hplan : greedySearch (fun _ _ => 0) dummyInit none none 1 =
      some [wCleanAction] := by decide
  obtain ⟨path, g, hp, hl, hg, -⟩ :=
    greedy_search_plan_reaches_goal.1 (fun _ _ => 0) none none dummyInit 1
      [wCleanAction] hplan
  have hd : generatePath dummyInit [wCleanAction] =
      .ok [dummyInit, gWitState] := by decide
  have hpath : path = [dummyInit, gWitState] := Except.ok.inj (hp.symm.trans hd)
  subst hpath
  have hgw : gWitState = g :=
    Option.some.inj ((rfl :
      ([dummyInit, gWitState] : List EnvState).getLast? = some gWitState).symm.trans hl)
  exact ⟨hplan, hd, hgw ▸ hg⟩

/-! ## C10: the frontier is seeded with heuristic key 0.0 -/

theorem successors_problem {t : EnvState} {act : Action} {ns : EnvState}
    (h : (act, ns) ∈ successors t) : ns.problem = t.problem := by
  rw [(successors_mem_elim h).2]

theorem limitHit_zero : ∀ l : Option Nat, limitHit l 0 = false := by
  intro l
  cases l with
  | none => rfl
  | some n =>
    cases n with
    | zero => simp [limitHit]
    | succ m => simp [limitHit]

/-- The greedy search never evaluates the heuristic on the initial state's
literal set (the initial candidate carries key `0.`, and the heuristic is only
invoked on newly discovered states, which are never the initial one): the
inner loop's behaviour is unchanged by the heuristic's value there. -/
theorem greedyInner_hcongr (h₁ h₂ : Heuristic) (s0 : EnvState)
    (hagree : ∀ (l : Finset Lit) (p : Problem), l ≠ s0.literals → h₁ l p = h₂ l p)
    (eL : Option Nat) (cur : EnvState) :
    ∀ (list : List (Action × EnvState)) (heap : List Candidate)
      (parents : Parents) (ev : Nat),
      (pfind parents s0).isSome = true →
      (∀ x ∈ list, x.2.problem = s0.problem) →
      greedyInner h₁ s0.problem eL cur list heap parents ev =
        greedyInner h₂ s0.problem eL cur list heap parents ev
      ∧ ∀ heap' parents' ev',
          greedyInner h₁ s0.problem eL cur list heap parents ev =
            .cont heap' parents' ev' →
          (pfind parents' s0).isSome = true ∧
            ∀ c ∈ heap', c ∈ heap ∨ c.state.problem = s0.problem := by
  intro list
  induction list with
  | nil =>
    intro heap parents ev hK hlist
    refine ⟨rfl, ?_⟩
    intro heap' parents' ev' hcont
    cases hcont
    exact ⟨hK, fun c hc => Or.inl hc⟩
  | cons pr rest ih =>
    intro heap parents ev hK hlist
    obtain ⟨act, ns⟩ := pr
    have hnspb : ns.problem = s0.problem := hlist _ (List.mem_cons_self _ _)
    have hlist' : ∀ x ∈ rest, x.2.problem = s0.problem :=
      fun x hx => hlist x (List.mem_cons_of_mem _ hx)
    by_cases hlim : limitHit eL ev = true
    · refine ⟨by simp [greedyInner, if_pos hlim], ?_⟩
      intro heap' parents' ev' hcont
      simp only [greedyInner, if_pos hlim] at hcont
      cases hcont
      exact ⟨hK, fun c hc => Or.inl hc⟩
    · by_cases hvis : (pfind parents ns).isSome = true
      · by_cases hgoal : s0.problem.goalSatisfied ns.literals = true
        · refine ⟨by simp [greedyInner, if_neg hlim, if_pos hvis, if_pos hgoal], ?_⟩
          intro heap' parents' ev' hcont
          simp only [greedyInner, if_neg hlim, if_pos hvis, if_pos hgoal] at hcont
          cases hcont
        · have hrec := ih heap parents (ev + 1) hK hlist'
          constructor
          · simp only [greedyInner, if_neg hlim, if_pos hvis, if_neg hgoal]
            exact hrec.1
          · intro heap' parents' ev' hcont
            simp only [greedyInner, if_neg hlim, if_pos hvis, if_neg hgoal] at hcont
            exact hrec.2 heap' parents' ev' hcont
      · -- a fresh state: prove it cannot be the initial one
        have hnsnone : pfind parents ns = none := by
          cases hx : pfind parents ns with
          | none => rfl
          | some w => rw [hx] at hvis; simp at hvis
        have hnslit : ns.literals ≠ s0.literals := by
          intro heq
          have hns_eq : ns = s0 := by
            calc ns = ⟨ns.literals, ns.problem⟩ := rfl
              _ = ⟨s0.literals, s0.problem⟩ := by rw [heq, hnspb]
              _ = s0 := rfl
          rw [hns_eq] at hnsnone
          rw [hnsnone] at hK
          cases hK
        have hval : h₁ ns.literals s0.problem = h₂ ns.literals s0.problem :=
          hagree _ _ hnslit
        have hK'' : (pfind (parents ++ [(ns, some (cur, act))]) s0).isSome = true := by
          obtain ⟨w, hw⟩ := Option.isSome_iff_exists.mp hK
          rw [pfind_append_some hw]
          rfl
        by_cases hgoal : s0.problem.goalSatisfied ns.literals = true
        · refine ⟨by simp [greedyInner, if_neg hlim, if_neg hvis, if_pos hgoal], ?_⟩
          intro heap' parents' ev' hcont
          simp only [greedyInner, if_neg hlim, if_neg hvis, if_pos hgoal] at hcont
          cases hcont
        · have hrec := ih (heap ++ [⟨h₂ ns.literals s0.problem, ns⟩])
            (parents ++ [(ns, some (cur, act))]) (ev + 1) hK'' hlist'
          constructor
          · simp only [greedyInner, if_neg hlim, if_neg hvis, if_neg hgoal]
            rw [hval]
            exact hrec.1
          · intro heap' parents' ev' hcont
            simp only [greedyInner, if_neg hlim, if_neg hvis, if_neg hgoal] at hcont
            rw [hval] at hcont
            obtain ⟨hk', hmem'⟩ := hrec.2 heap' parents' ev' hcont
            refine ⟨hk', ?_⟩
            intro c hc
            rcases hmem' c hc with hc' | hc'
            · rcases List.mem_append.mp hc' with hc'' | hc''
              · exact Or.inl hc''
              · rcases List.mem_singleton.mp hc'' with rfl
                exact Or.inr hnspb
            · exact Or.inr hc'

theorem greedyGo_hcongr (h₁ h₂ : Heuristic) (s0 : EnvState)
    (hagree : ∀ (l : Finset Lit) (p : Problem), l ≠ s0.literals → h₁ l p = h₂ l p)
    (eL xL : Option Nat) :
    ∀ (fuel : Nat) (heap : List Candidate) (parents : Parents) (exp ev : Nat),
      (pfind parents s0).isSome = true →
      (∀ c ∈ heap, c.state.problem = s0.problem) →
      greedyGo h₁ s0.problem eL xL fuel heap parents exp ev =
        greedyGo h₂ s0.problem eL xL fuel heap parents exp ev := by
  intro fuel
  induction fuel with
  | zero => intro heap parents exp ev _ _; rfl
  | succ f ih =>
    intro heap parents exp ev hK hH
    simp only [greedyGo]
    cases hpop : popMin heap with
    | none => rfl
    | some cr =>
      obtain ⟨c, rest⟩ := cr
      dsimp only
      by_cases hlim : limitHit xL exp = true
      · rw [if_pos hlim, if_pos hlim]
      · rw [if_neg hlim, if_neg hlim]
        obtain ⟨hcmem, hrestmem⟩ := popMin_mem heap c rest hpop
        have hlistinv : ∀ x ∈ successors c.state, x.2.problem = s0.problem := by
          intro x hx
          obtain ⟨a, b⟩ := x
          rw [successors_problem hx]
          exact hH c hcmem
        have hcongr := greedyInner_hcongr h₁ h₂ s0 hagree eL c.state
          (successors c.state) rest parents ev hK hlistinv
        rw [← hcongr.1]
        cases hstep : greedyInner h₁ s0.problem eL c.state (successors c.state)
            rest parents ev with
        | found plan => rfl
        | cont heap' parents' ev' =>
          obtain ⟨hk', hmem'⟩ := hcongr.2 heap' parents' ev' hstep
          refine ih heap' parents' (exp + 1) ev' hk' ?_
          intro c' hc'
          rcases hmem' c' hc' with hc'' | hc''
          · exact hH c' (hrestmem c' hc'')
          · exact hc''

/-- With `detect_minima`, candidates pushed during an expansion carry their
own heuristic value and that value is at most the popped node's value. -/
theorem hcInner_detect_pushed (h : Heuristic) (pb : Problem) (eL : Option Nat)
    (cur : EnvState) (value : ℚ) :
    ∀ (list : List (Action × EnvState)) (heap : List Candidate) (parents : Parents)
      (ev : Nat) (heap' : List Candidate) (parents' : Parents) (ev' : Nat),
      hcInner h pb eL true cur value list heap parents ev = .cont heap' parents' ev' →
      ∀ cand ∈ heap', cand ∈ heap ∨
        (cand.heuristic = h cand.state.literals pb ∧ cand.heuristic ≤ value) := by
  intro list
  induction list with
  | nil =>
    intro heap parents ev heap' parents' ev' hstep cand hcand
    cases hstep
    exact Or.inl hcand
  | cons pr rest ih =>
    intro heap parents ev heap' parents' ev' hstep cand hcand
    obtain ⟨act, ns⟩ := pr
    simp only [hcInner] at hstep
    by_cases hlim : limitHit eL ev = true
    · rw [if_pos hlim] at hstep
      cases hstep
      exact Or.inl hcand
    · rw [if_neg hlim] at hstep
      by_cases hgoal : pb.goalSatisfied ns.literals = true
      · rw [if_pos hgoal] at hstep
        cases hstep
      · rw [if_neg hgoal] at hstep
        have hmem := ih _ _ _ _ _ _ hstep cand hcand
        rcases hmem with hh | hs
        · by_cases hvis : (pfind parents ns).isSome = true
          · rw [if_pos hvis] at hh
            exact Or.inl hh
          · rw [if_neg hvis] at hh
            by_cases hdet : (true = false ∨ h ns.literals pb ≤ value)
            · rw [if_pos hdet] at hh
              rcases List.mem_append.mp hh with hh' | hh'
              · exact Or.inl hh'
              · rcases List.mem_singleton.mp hh' with rfl
                rcases hdet with hdet | hdet
                · cases hdet
                · exact Or.inr ⟨rfl, hdet⟩
            · rw [if_neg hdet] at hh
              exact Or.inl hh
        · exact Or.inr hs

/-- With no evaluation limit, the hill-climbing inner loop returns a plan as
soon as some successor in its list satisfies the goal, whether or not the
successor was pushed. -/
theorem hcInner_goal_found (h : Heuristic) (pb : Problem) (detect : Bool)
    (cur : EnvState) (value : ℚ) :
    ∀ (list : List (Action × EnvState)) (heap : List Candidate) (parents : Parents)
      (ev : Nat),
      (∃ pr ∈ list, pb.goalSatisfied pr.2.literals = true) →
      ∃ plan, hcInner h pb none detect cur value list heap parents ev = .found plan := by
  intro list
  induction list with
  | nil =>
    rintro heap parents ev ⟨pr, hpr, -⟩
    cases hpr
  | cons pr0 rest ih =>
    rintro heap parents ev ⟨pr, hpr, hprg⟩
    obtain ⟨act, ns⟩ := pr0
    have hlim : limitHit none ev = true ↔ False := by simp [limitHit]
    by_cases hgoal : pb.goalSatisfied ns.literals = true
    · refine ⟨generatePlan ns (if (pfind parents ns).isSome = true then parents
        else parents ++ [(ns, some (cur, act))]), ?_⟩
      simp only [hcInner, if_neg (by simp [limitHit] : ¬limitHit none ev = true),
        if_pos hgoal]
    · rcases List.mem_cons.mp hpr with rfl | hpr'
      · exact absurd hprg hgoal
      · obtain ⟨plan, hplan⟩ := ih _ _ (ev + 1) ⟨pr, hpr', hprg⟩
        refine ⟨plan, ?_⟩
        simp only [hcInner, if_neg (by simp [limitHit] : ¬limitHit none ev = true),
          if_neg hgoal]
        exact hplan

/-- C10: both searches seed the frontier with the initial state under key
`0.` rather than the initial state's heuristic value.  For the greedy search
this makes the result independent of the heuristic's value at the initial
state's literal set; the first hill-climbing expansion compares successors
against `0`, so with `detect_minima` a successor is pushed only if its value
is at most `0`—yet a goal-satisfying successor still returns a plan whether or
not it was pushed. -/
theorem search_frontier_seeded_with_zero :
    (∀ (h₁ h₂ : Heuristic) (s0 : EnvState) (eL xL : Option Nat) (fuel : Nat),
      (∀ (l : Finset Lit) (p : Problem), l ≠ s0.literals → h₁ l p = h₂ l p) →
      greedySearch h₁ s0 eL xL fuel = greedySearch h₂ s0 eL xL fuel)
    ∧ (∀ (h : Heuristic) (s0 : EnvState) (eL xL : Option Nat) (detect : Bool) (fuel : Nat),
        hcSearch h s0 eL xL detect (fuel + 1) =
          match hcInner h s0.problem eL detect s0 0 (successors s0) [] [(s0, none)] 0 with
          | .found plan => some plan
          | .cont heap' parents' ev' =>
            hcGo h s0.problem eL xL detect fuel heap' parents' 1 ev')
    ∧ (∀ (h : Heuristic) (s0 : EnvState) (eL : Option Nat) (heap' : List Candidate)
        (parents' : Parents) (ev' : Nat),
        hcInner h s0.problem eL true s0 0 (successors s0) [] [(s0, none)] 0 =
          .cont heap' parents' ev' →
        ∀ cand ∈ heap', cand.heuristic = h cand.state.literals s0.problem ∧
          cand.heuristic ≤ 0)
    ∧ ∀ (h : Heuristic) (s0 : EnvState) (xL : Option Nat) (detect : Bool) (fuel : Nat)
        (act : Action) (ns : EnvState),
        (act, ns) ∈ successors s0 → s0.problem.goalSatisfied ns.literals = true →
        ∃ plan, hcSearch h s0 none xL detect (fuel + 1) = some plan := by
  refine ⟨?_, ?_, ?_, ?_⟩
  · intro h₁ h₂ s0 eL xL fuel hagree
    refine greedyGo_hcongr h₁ h₂ s0 hagree eL xL fuel _ _ 0 0 (by simp [pfind]) ?_
    intro c hc
    rcases List.mem_singleton.mp hc with rfl
    rfl
  · intro h s0 eL xL detect fuel
    simp only [hcSearch, hcGo]
    rw [show popMin [(⟨0, s0⟩ : Candidate)] = some (⟨0, s0⟩, []) from rfl]
    dsimp only
    rw [if_neg (by simp [limitHit_zero])]
  · intro h s0 eL heap' parents' ev' hstep cand hcand
    rcases hcInner_detect_pushed h s0.problem eL s0 0 _ _ _ _ _ _ _ hstep cand hcand
      with hh | hs
    · cases hh
    · exact hs
  · intro h s0 xL detect fuel act ns hsucc hgoal
    obtain ⟨plan, hplan⟩ := hcInner_goal_found h s0.problem detect s0 0
      (successors s0) [] [(s0, none)] 0 ⟨(act, ns), hsucc, hgoal⟩
    refine ⟨plan, ?_⟩
    simp only [hcSearch, hcGo]
    rw [show popMin [(⟨0, s0⟩ : Candidate)] = some (⟨0, s0⟩, []) from rfl]
    dsimp only
    rw [if_neg (by simp [limitHit_zero]), hplan]

/-- Witness for C10: on the toy domain, changing the heuristic's value on the
initial literal set only (from 0 to 5) does not change the greedy result. -/
theorem search_frontier_seeded_with_zero_witness :
    greedySearch (fun l _ => if l = dummyInit.literals then 5 else 0)
        dummyInit none none 2 =
      greedySearch (fun _ _ => 0) dummyInit none none 2 :=
  search_frontier_seeded_with_zero.1
    (fun l _ => if l = dummyInit.literals then 5 else 0) (fun _ _ => 0)
    dummyInit none none 2 (fun l _ hl => by simp [hl])

/-! ## C6: the indexing engine (pddlenv/array/indexing.py)

Per-arity index data is modelled row-wise: `indices` maps an arity to the
list of its rows `(batch index, coordinate list)`, where a coordinate list is
`object indices ++ [predicate index]`.  NumPy's column-tuple representation
(`tuple(zip(*rows))`) is the transpose of this; the vectorised NumPy
operations act pointwise on rows. -/

/-- Association-list lookup with `Nat` keys (Python dict access by key). -/
def alookup {β : Type} : List (Nat × β) → Nat → Option β
  | [], _ => none
  | (a', v) :: rest, a => if a' = a then some v else alookup rest a

/-- `np.ravel_multi_index(coords, dims)` for one row: the mixed-radix value
`Σ coords[k] · prod dims[k+1:]`, with the bounds check NumPy performs (an
out-of-range or wrong-rank coordinate raises). -/
def ravelMulti? : List Nat → List Nat → Option Nat
  | [], [] => some 0
  | c :: cs, d :: ds =>
    if c < d then (ravelMulti? cs ds).map (fun r => c * ds.prod + r) else none
  | _, _ => none

/-- Inverse of the mixed-radix encoding: successive division by the
remaining block sizes. -/
def unravelMulti : Nat → List Nat → List Nat
  | _, [] => []
  | n, _ :: ds => (n / ds.prod) :: unravelMulti (n % ds.prod) ds

/-- Recover `(arity, within-block coordinates)` from a global flat offset by
walking the shape table in order, subtracting each block's size (the inverse
of the cumulative-offset layout of `ravel_literal_indices`). -/
def decodeFlat : Nat → List (Nat × List Nat) → Option (Nat × List Nat)
  | _, [] => none
  | n, (a, sh) :: rest =>
    if n < sh.prod then some (a, unravelMulti n sh)
    else decodeFlat (n - sh.prod) rest

/-- `arity_offsets`: the exclusive cumulative sum of block sizes in shape
table order (`np.cumsum([0] + [prod(shape) ...])` zipped with the keys). -/
def arityOffset? : List (Nat × List Nat) → Nat → Option Nat
  | [], _ => none
  | (a', sh) :: rest, a =>
    if a' = a then some 0
    else (arityOffset? rest a).map (fun off => sh.prod + off)

/-- Ravel one arity's rows: per row `(batch, ravel_multi_index + offset)`. -/
def rowsRavel (sh : List Nat) (off : Nat) :
    List (Nat × List Nat) → Option (List (Nat × Nat))
  | [] => some []
  | (b, coords) :: rest =>
    match ravelMulti? coords sh with
    | none => none
    | some n => (rowsRavel sh off rest).map (fun l => (b, n + off) :: l)

def ravelAll (shapes : List (Nat × List Nat)) :
    List (Nat × List (Nat × List Nat)) → Option (List (Nat × Nat))
  | [] => some []
  | (a, rows) :: rest =>
    match arityOffset? shapes a, alookup shapes a with
    | some off, some sh =>
      match rowsRavel sh off rows with
      | none => none
      | some l => (ravelAll shapes rest).map (fun l' => l ++ l')
    | _, _ => none

/-- `ravel_literal_indices(indices, shapes)`: concatenate, in `indices` dict
order, each arity block's ravelled offsets shifted by the block's cumulative
offset.  On an empty `indices` dict the NumPy code raises (`zip(*...)` with
no arguments), hence `none`. -/
def ravel_literal_indices (indices : List (Nat × List (Nat × List Nat)))
    (shapes : List (Nat × List Nat)) : Option (List (Nat × Nat)) :=
  if indices = [] then none else ravelAll shapes indices

/-- `defaultdict(list)` insertion: append the row to the arity's bucket,
creating the bucket at the end on first use (dict insertion order). -/
def dinsert : List (Nat × List (Nat × List Nat)) → Nat → (Nat × List Nat) →
    List (Nat × List (Nat × List Nat))
  | [], a, row => [(a, [row])]
  | (a', rows) :: rest, a, row =>
    if a' = a then (a', rows ++ [row]) :: rest
    else (a', rows) :: dinsert rest a row

def unravelFold (shapes : List (Nat × List Nat)) :
    List (Nat × List (Nat × List Nat)) → List (Nat × Nat) →
    List (Nat × List (Nat × List Nat))
  | acc, [] => acc
  | acc, (b, n) :: rest =>
    match decodeFlat n shapes with
    | some (a, coords) => unravelFold shapes (dinsert acc a (b, coords)) rest
    | none => unravelFold shapes acc rest

/-- Modelled from the spec: `unravel_literal_indices` is exercised by
`tests/indexing_test.py` but absent from `pddlenv/array` in the source tree.
Following spec §4.4, it is the exact inverse of `ravel_literal_indices`:
each `(batch, flat offset)` pair is decoded against the per-arity shape
table into `(arity, object indices…, predicate index)` and the results are
grouped by arity (in first-occurrence order, preserving order within an
arity); an arity whose block contains no entries is simply absent from the
result. -/
def unravel_literal_indices (flat : List (Nat × Nat))
    (shapes : List (Nat × List Nat)) : List (Nat × List (Nat × List Nat)) :=
  unravelFold shapes [] flat

/-- First-occurrence index in a string list (the dense index a Python
enumerate-dict assigns; callers pass duplicate-free lists). -/
def idxOf? (o : String) : List String → Option Nat
  | [] => none
  | x :: rest => if x = o then some 0 else (idxOf? o rest).map (· + 1)

def oMapM {α β : Type} (f : α → Option β) : List α → Option (List β)
  | [] => some []
  | a :: rest =>
    match f a with
    | none => none
    | some b => (oMapM f rest).map (b :: ·)

/-- `itertools.groupby(sorted(predicates, key=arity), key=arity)`: the
arities in ascending order, each with its predicates (Python's sort is
stable, so filtering the original list gives the same per-group order). -/
def arityGroups (preds : List PredSchema) : List (Nat × List PredSchema) :=
  ((preds.map PredSchema.arity).dedup.insertionSort (· ≤ ·)).map
    (fun a => (a, preds.filter (fun p => p.arity = a)))

/-- `_shape_from_grouped_predicates`: per arity,
`(num_objects,) * arity + (len(preds),)`. -/
def computeShapes (numObjects : Nat) (groups : List (Nat × List PredSchema)) :
    List (Nat × List Nat) :=
  groups.map (fun g => (g.1, List.replicate g.1 numObjects ++ [g.2.length]))

/-- The per-literal body of the `compute_indices` loop:
`indices[arity].append((i,) + _grounded_literal_index(lit, objects, sorted_pred[arity]))`,
with a failed object or predicate lookup raising (`KeyError`). -/
def slotGo (groups : List (Nat × List PredSchema)) (sortedObjs : List String) (i : Nat) :
    List Lit → List (Nat × List (Nat × List Nat)) →
    Option (List (Nat × List (Nat × List Nat)))
  | [], acc => some acc
  | lit :: rest, acc =>
    match alookup groups lit.arity with
    | none => none
    | some ps =>
      match oMapM (fun o => idxOf? o sortedObjs) lit.args,
          idxOf? lit.pred ((ps.insertionSort predNameLe).map PredSchema.name) with
      | some objIdxs, some pidx =>
        slotGo groups sortedObjs i rest (dinsert acc lit.arity (i, objIdxs ++ [pidx]))
      | _, _ => none

def indicesGo (groups : List (Nat × List PredSchema)) (sortedObjs : List String) :
    Nat → List (List Lit) → List (Nat × List (Nat × List Nat)) →
    Option (List (Nat × List (Nat × List Nat)))
  | _, [], acc => some acc
  | i, slot :: rest, acc =>
    match slotGo groups sortedObjs i slot acc with
    | none => none
    | some acc' => indicesGo groups sortedObjs (i + 1) rest acc'

/-- `compute_indices(literals, objects, predicates)`.  Objects get dense
indices by sorted order; predicates are grouped by arity and indexed by
sorted name within each group; every literal contributes one row.  (The
Python object-index dict assumes the objects are distinct, as the callers'
deduplicated object tuples are.) -/
def computeIndices (literals : List (List Lit)) (objects : List String)
    (preds : List PredSchema) :
    Option (List (Nat × List (Nat × List Nat)) × List (Nat × List Nat)) :=
  let groups := arityGroups preds
  let sortedObjs := objects.insertionSort strLe
  match indicesGo groups sortedObjs 0 literals [] with
  | none => none
  | some idx => some (idx, computeShapes sortedObjs.length groups)

theorem ravelMulti_lt :
    ∀ (cs ds : List Nat) (n : Nat), ravelMulti? cs ds = some n → n < ds.prod := by
  intro cs
  induction cs with
  | nil =>
    intro ds n h
    cases ds with
    | nil =>
      have := Option.some.inj h
      subst this
      simp
    | cons d ds => simp [ravelMulti?] at h
  | cons c cs ih =>
    intro ds n h
    cases ds with
    | nil => simp [ravelMulti?] at h
    | cons d ds =>
      simp only [ravelMulti?] at h
      split_ifs at h with hc
      · cases hr : ravelMulti? cs ds with
        | none => rw [hr] at h; cases h
        | some r =>
          rw [hr] at h
          simp only [Option.map] at h
          have := Option.some.inj h
          subst this
          have hrlt := ih ds r hr
          rw [List.prod_cons]
          calc c * ds.prod + r < c * ds.prod + ds.prod := by omega
            _ = (c + 1) * ds.prod := by ring
            _ ≤ d * ds.prod := Nat.mul_le_mul_right _ hc

theorem unravel_ravelMulti :
    ∀ (cs ds : List Nat) (n : Nat), ravelMulti? cs ds = some n →
      unravelMulti n ds = cs := by
  intro cs
  induction cs with
  | nil =>
    intro ds n h
    cases ds with
    | nil => rfl
    | cons d ds => simp [ravelMulti?] at h
  | cons c cs ih =>
    intro ds n h
    cases ds with
    | nil => simp [ravelMulti?] at h
    | cons d ds =>
      simp only [ravelMulti?] at h
      split_ifs at h with hc
      · cases hr : ravelMulti? cs ds with
        | none => rw [hr] at h; cases h
        | some r =>
          rw [hr] at h
          simp only [Option.map] at h
          have := Option.some.inj h
          subst this
          have hrlt := ravelMulti_lt cs ds r hr
          have hP : 0 < ds.prod := Nat.pos_of_ne_zero (by omega)
          simp only [unravelMulti]
          have hre : c * ds.prod + r = r + ds.prod * c := by ring
          have hdiv : (c * ds.prod + r) / ds.prod = c := by
            rw [hre, Nat.add_mul_div_left r c hP, Nat.div_eq_of_lt hrlt, Nat.zero_add]
          have hmod : (c * ds.prod + r) % ds.prod = r := by
            rw [hre, Nat.add_mul_mod_self_left, Nat.mod_eq_of_lt hrlt]
          rw [hdiv, hmod, ih ds r hr]

/-- Decoding a flat offset lying in arity `a`'s block recovers the arity and
its within-block coordinates. -/
theorem decode_block :
    ∀ (shapes : List (Nat × List Nat)) (a : Nat) (sh : List Nat) (off r : Nat),
      arityOffset? shapes a = some off → alookup shapes a = some sh →
      r < sh.prod →
      decodeFlat (r + off) shapes = some (a, unravelMulti r sh) := by
  intro shapes
  induction shapes with
  | nil => intro a sh off r hoff _ _; cases hoff
  | cons p rest ih =>
    intro a sh off r hoff hsh hr
    obtain ⟨a', sh'⟩ := p
    by_cases ha : a' = a
    · simp only [arityOffset?, if_pos ha] at hoff
      simp only [alookup, if_pos ha] at hsh
      have hoff0 := Option.some.inj hoff
      have hsheq := Option.some.inj hsh
      subst hoff0
      subst hsheq
      subst ha
      simp only [decodeFlat, Nat.add_zero, if_pos hr]
    · simp only [arityOffset?, if_neg ha] at hoff
      simp only [alookup, if_neg ha] at hsh
      cases hoff' : arityOffset? rest a with
      | none => rw [hoff'] at hoff; cases hoff
      | some off' =>
        rw [hoff'] at hoff
        simp only [Option.map] at hoff
        have hoffeq := Option.some.inj hoff
        subst hoffeq
        simp only [decodeFlat]
        rw [if_neg (by omega)]
        have harith : r + (sh'.prod + off') - sh'.prod = r + off' := by omega
        rw [harith]
        exact ih a sh off' r hoff' hsh hr

theorem dinsert_not_mem :
    ∀ (acc : List (Nat × List (Nat × List Nat))) (a : Nat) (row : Nat × List Nat),
      a ∉ acc.map Prod.fst → dinsert acc a row = acc ++ [(a, [row])] := by
  intro acc
  induction acc with
  | nil => intro a row _; rfl
  | cons p rest ih =>
    intro a row hmem
    obtain ⟨a', rows'⟩ := p
    have ha : a' ≠ a := by
      intro hc
      exact hmem (by simp [hc])
    simp only [dinsert, if_neg ha, List.cons_append]
    rw [ih a row (fun hc => hmem (by simp [hc]))]

theorem dinsert_last :
    ∀ (acc : List (Nat × List (Nat × List Nat))) (a : Nat)
      (rows : List (Nat × List Nat)) (row : Nat × List Nat),
      a ∉ acc.map Prod.fst →
      dinsert (acc ++ [(a, rows)]) a row = acc ++ [(a, rows ++ [row])] := by
  intro acc
  induction acc with
  | nil => intro a rows row _; simp [dinsert]
  | cons p rest ih =>
    intro a rows row hmem
    obtain ⟨a', rows'⟩ := p
    have ha : a' ≠ a := by
      intro hc
      exact hmem (by simp [hc])
    simp only [List.cons_append, dinsert, if_neg ha, List.append_eq]
    rw [ih a rows row (fun hc => hmem (by simp [hc]))]

/-- Processing one (nonempty tail of a) ravelled arity block appends its rows
to that arity's bucket. -/
theorem unravelFold_rows (shapes : List (Nat × List Nat)) (a : Nat)
    (off : Nat) (sh : List Nat)
    (hoff : arityOffset? shapes a = some off) (hsh : alookup shapes a = some sh) :
    ∀ (rows : List (Nat × List Nat)) (flatRows : List (Nat × Nat)),
      rowsRavel sh off rows = some flatRows →
      ∀ (acc : List (Nat × List (Nat × List Nat))) (done : List (Nat × List Nat))
        (rest' : List (Nat × Nat)),
        a ∉ acc.map Prod.fst →
        unravelFold shapes (acc ++ [(a, done)]) (flatRows ++ rest') =
          unravelFold shapes (acc ++ [(a, done ++ rows)]) rest' := by
  intro rows
  induction rows with
  | nil =>
    intro flatRows hrr acc done rest' hmem
    have : flatRows = [] := (Option.some.inj hrr).symm
    subst this
    rw [List.append_nil, List.nil_append]
  | cons row rows' ih =>
    intro flatRows hrr acc done rest' hmem
    obtain ⟨b, coords⟩ := row
    simp only [rowsRavel] at hrr
    cases hm : ravelMulti? coords sh with
    | none => rw [hm] at hrr; cases hrr
    | some n =>
      rw [hm] at hrr
      cases hfr : rowsRavel sh off rows' with
      | none => rw [hfr] at hrr; simp only [Option.map] at hrr; cases hrr
      | some l =>
        rw [hfr] at hrr
        simp only [Option.map] at hrr
        have := Option.some.inj hrr
        subst this
        have hdec : decodeFlat (n + off) shapes = some (a, coords) := by
          rw [decode_block shapes a sh off n hoff hsh (ravelMulti_lt coords sh n hm),
            unravel_ravelMulti coords sh n hm]
        simp only [List.cons_append, unravelFold, hdec, List.append_eq]
        rw [dinsert_last acc a done (b, coords) hmem]
        rw [ih l hfr acc (done ++ [(b, coords)]) rest' hmem]
        rw [List.append_assoc done [(b, coords)] rows']
        rfl

/-- Structural validity of a per-arity index table relative to a shape
table: distinct arities, nonempty row blocks, every arity present in the
shape table and every row's coordinates in range. -/
def WellFormedIdx (idx : List (Nat × List (Nat × List Nat)))
    (shapes : List (Nat × List Nat)) : Prop :=
  (idx.map Prod.fst).Nodup ∧
  ∀ p ∈ idx, p.2 ≠ [] ∧ ∃ off sh, arityOffset? shapes p.1 = some off ∧
    alookup shapes p.1 = some sh ∧ ∀ row ∈ p.2, ∃ n, ravelMulti? row.2 sh = some n

theorem unravelFold_ravelAll (shapes : List (Nat × List Nat)) :
    ∀ (idx : List (Nat × List (Nat × List Nat))) (flat : List (Nat × Nat)),
      WellFormedIdx idx shapes → ravelAll shapes idx = some flat →
      ∀ acc : List (Nat × List (Nat × List Nat)),
        (∀ b ∈ idx.map Prod.fst, b ∉ acc.map Prod.fst) →
        unravelFold shapes acc flat = acc ++ idx := by
  intro idx
  induction idx with
  | nil =>
    intro flat _ hflat acc _
    have : flat = [] := (Option.some.inj hflat).symm
    subst this
    simp [unravelFold]
  | cons p rest ih =>
    intro flat hwf hflat acc hdisj
    obtain ⟨a, rows⟩ := p
    obtain ⟨hnodup, hprops⟩ := hwf
    obtain ⟨hne, off, sh, hoff, hsh, hrows⟩ := hprops (a, rows) (List.mem_cons_self _ _)
    simp only [ravelAll, hoff, hsh] at hflat
    cases hrr : rowsRavel sh off rows with
    | none => rw [hrr] at hflat; cases hflat
    | some l =>
      rw [hrr] at hflat
      cases hrest : ravelAll shapes rest with
      | none => rw [hrest] at hflat; simp only [Option.map] at hflat; cases hflat
      | some l' =>
        rw [hrest] at hflat
        simp only [Option.map] at hflat
        have := Option.some.inj hflat
        subst this
        have hanotacc : a ∉ acc.map Prod.fst := hdisj a (by simp)
        -- process the head block
        cases rows with
        | nil => exact absurd rfl hne
        | cons row0 rows' =>
          obtain ⟨b0, coords0⟩ := row0
          simp only [rowsRavel] at hrr
          cases hm : ravelMulti? coords0 sh with
          | none => rw [hm] at hrr; cases hrr
          | some n0 =>
            rw [hm] at hrr
            cases hfr : rowsRavel sh off rows' with
            | none => rw [hfr] at hrr; simp only [Option.map] at hrr; cases hrr
            | some l0 =>
              rw [hfr] at hrr
              simp only [Option.map] at hrr
              have := Option.some.inj hrr
              subst this
              have hdec : decodeFlat (n0 + off) shapes = some (a, coords0) := by
                rw [decode_block shapes a sh off n0 hoff hsh
                  (ravelMulti_lt coords0 sh n0 hm),
                  unravel_ravelMulti coords0 sh n0 hm]
              simp only [List.cons_append, unravelFold, hdec, List.append_eq]
              rw [dinsert_not_mem acc a (b0, coords0) hanotacc]
              rw [unravelFold_rows shapes a off sh hoff hsh rows' l0 hfr acc
                [(b0, coords0)] l' hanotacc]
              have hwfrest : WellFormedIdx rest shapes := by
                refine ⟨(List.nodup_cons.mp hnodup).2, ?_⟩
                intro q hq
                exact hprops q (List.mem_cons_of_mem _ hq)
              have hdisj' : ∀ b ∈ rest.map Prod.fst,
                  b ∉ (acc ++ [(a, (b0, coords0) :: rows')]).map Prod.fst := by
                intro b hb hcontra
                rw [List.map_append, List.mem_append] at hcontra
                rcases hcontra with hc | hc
                · exact hdisj b (by simp [hb]) hc
                · rcases List.mem_singleton.mp (by simpa using hc) with rfl
                  exact (List.nodup_cons.mp hnodup).1 hb
              rw [List.singleton_append]
              rw [ih l' hwfrest hrest (acc ++ [(a, (b0, coords0) :: rows')]) hdisj']
              simp

theorem rowsRavel_isSome (sh : List Nat) (off : Nat) :
    ∀ rows : List (Nat × List Nat),
      (∀ row ∈ rows, ∃ n, ravelMulti? row.2 sh = some n) →
      ∃ l, rowsRavel sh off rows = some l := by
  intro rows
  induction rows with
  | nil => intro _; exact ⟨[], rfl⟩
  | cons row rest ih =>
    intro hrows
    obtain ⟨b, coords⟩ := row
    obtain ⟨n, hn⟩ := hrows (b, coords) (List.mem_cons_self _ _)
    obtain ⟨l, hl⟩ := ih (fun r hr => hrows r (List.mem_cons_of_mem _ hr))
    refine ⟨(b, n + off) :: l, ?_⟩
    simp only [rowsRavel]
    rw [hn, hl]
    rfl

theorem ravelAll_isSome (shapes : List (Nat × List Nat)) :
    ∀ idx : List (Nat × List (Nat × List Nat)),
      WellFormedIdx idx shapes → ∃ flat, ravelAll shapes idx = some flat := by
  intro idx
  induction idx with
  | nil => intro _; exact ⟨[], rfl⟩
  | cons p rest ih =>
    intro hwf
    obtain ⟨a, rows⟩ := p
    obtain ⟨hnodup, hprops⟩ := hwf
    obtain ⟨hne, off, sh, hoff, hsh, hrows⟩ := hprops (a, rows) (List.mem_cons_self _ _)
    obtain ⟨l, hl⟩ := rowsRavel_isSome sh off rows hrows
    obtain ⟨l', hl'⟩ := ih ⟨(List.nodup_cons.mp hnodup).2,
      fun q hq => hprops q (List.mem_cons_of_mem _ hq)⟩
    refine ⟨l ++ l', ?_⟩
    simp only [ravelAll, hoff, hsh]
    rw [hl, hl']
    rfl

theorem idxOf?_lt (o : String) :
    ∀ (l : List String) (i : Nat), idxOf? o l = some i → i < l.length := by
  intro l
  induction l with
  | nil => intro i h; cases h
  | cons x rest ih =>
    intro i h
    simp only [idxOf?] at h
    by_cases hx : x = o
    · rw [if_pos hx] at h
      have := Option.some.inj h
      subst this
      simp
    · rw [if_neg hx] at h
      cases hr : idxOf? o rest with
      | none => rw [hr] at h; cases h
      | some j =>
        rw [hr] at h
        simp only [Option.map] at h
        have := Option.some.inj h
        subst this
        have := ih j hr
        simp
        omega

theorem oMapM_idxOf (sortedObjs : List String) :
    ∀ (args : List String) (objIdxs : List Nat),
      oMapM (fun o => idxOf? o sortedObjs) args = some objIdxs →
      objIdxs.length = args.length ∧ ∀ x ∈ objIdxs, x < sortedObjs.length := by
  intro args
  induction args with
  | nil =>
    intro objIdxs h
    have : [] = objIdxs := Option.some.inj h
    subst this
    exact ⟨rfl, by intro x hx; cases hx⟩
  | cons o rest ih =>
    intro objIdxs h
    simp only [oMapM] at h
    cases ho : idxOf? o sortedObjs with
    | none => rw [ho] at h; cases h
    | some i =>
      rw [ho] at h
      cases hr : oMapM (fun o => idxOf? o sortedObjs) rest with
      | none => rw [hr] at h; cases h
      | some rest' =>
        rw [hr] at h
        simp only [Option.map] at h
        have := Option.some.inj h
        subst this
        obtain ⟨hlen, hbound⟩ := ih rest' hr
        refine ⟨by simp [hlen], ?_⟩
        intro x hx
        rcases List.mem_cons.mp hx with rfl | hx'
        · exact idxOf?_lt o sortedObjs x ho
        · exact hbound x hx'

theorem ravelMulti_replicate :
    ∀ (objIdxs : List Nat) (numObjects k pidx : Nat),
      (∀ x ∈ objIdxs, x < numObjects) → pidx < k →
      ∃ m, ravelMulti? (objIdxs ++ [pidx])
        (List.replicate objIdxs.length numObjects ++ [k]) = some m := by
  intro objIdxs
  induction objIdxs with
  | nil =>
    intro numObjects k pidx _ hp
    exact ⟨pidx * List.prod [] + 0, by simp [ravelMulti?, hp]⟩
  | cons x rest ih =>
    intro numObjects k pidx hb hp
    obtain ⟨m, hm⟩ := ih numObjects k pidx
      (fun y hy => hb y (List.mem_cons_of_mem _ hy)) hp
    refine ⟨x * (List.replicate rest.length numObjects ++ [k]).prod + m, ?_⟩
    simp only [List.length_cons, List.replicate_succ, List.cons_append, ravelMulti?,
      if_pos (hb x (List.mem_cons_self _ _)), List.append_eq]
    rw [hm]
    rfl

theorem alookup_computeShapes (numObjects : Nat) :
    ∀ (groups : List (Nat × List PredSchema)) (a : Nat) (ps : List PredSchema),
      alookup groups a = some ps →
      alookup (computeShapes numObjects groups) a =
        some (List.replicate a numObjects ++ [ps.length]) := by
  intro groups
  induction groups with
  | nil => intro a ps h; cases h
  | cons g rest ih =>
    intro a ps h
    obtain ⟨a', ps'⟩ := g
    simp only [alookup] at h
    simp only [computeShapes, List.map_cons, alookup]
    by_cases ha : a' = a
    · rw [if_pos ha] at h
      have := Option.some.inj h
      subst this
      subst ha
      rw [if_pos rfl]
    · rw [if_neg ha] at h
      rw [if_neg ha]
      exact ih a ps h

theorem arityOffset_of_alookup :
    ∀ (shapes : List (Nat × List Nat)) (a : Nat) (sh : List Nat),
      alookup shapes a = some sh → ∃ off, arityOffset? shapes a = some off := by
  intro shapes
  induction shapes with
  | nil => intro a sh h; cases h
  | cons p rest ih =>
    intro a sh h
    obtain ⟨a', sh'⟩ := p
    simp only [alookup] at h
    simp only [arityOffset?]
    by_cases ha : a' = a
    · exact ⟨0, by rw [if_pos ha]⟩
    · rw [if_neg ha] at h
      obtain ⟨off, hoff⟩ := ih a sh h
      exact ⟨sh'.prod + off, by rw [if_neg ha, hoff]; rfl⟩

theorem dinsert_keys_sub :
    ∀ (acc : List (Nat × List (Nat × List Nat))) (a : Nat) (row : Nat × List Nat)
      (b : Nat), b ∈ (dinsert acc a row).map Prod.fst →
      b ∈ acc.map Prod.fst ∨ b = a := by
  intro acc
  induction acc with
  | nil =>
    intro a row b hb
    simp only [dinsert, List.map_cons, List.map_nil] at hb
    rcases List.mem_singleton.mp hb with rfl
    exact Or.inr rfl
  | cons p rest ih =>
    intro a row b hb
    obtain ⟨a', rows'⟩ := p
    simp only [dinsert] at hb
    by_cases ha : a' = a
    · rw [if_pos ha] at hb
      simp only [List.map_cons] at hb
      rcases List.mem_cons.mp hb with rfl | hb'
      · exact Or.inl (by simp)
      · exact Or.inl (by simp [hb'])
    · rw [if_neg ha] at hb
      simp only [List.map_cons] at hb
      rcases List.mem_cons.mp hb with rfl | hb'
      · exact Or.inl (by simp)
      · rcases ih a row b hb' with hc | hc
        · exact Or.inl (by simp [hc])
        · exact Or.inr hc

theorem dinsert_keys_nodup :
    ∀ (acc : List (Nat × List (Nat × List Nat))) (a : Nat) (row : Nat × List Nat),
      (acc.map Prod.fst).Nodup → ((dinsert acc a row).map Prod.fst).Nodup := by
  intro acc
  induction acc with
  | nil => intro a row _; simp [dinsert]
  | cons p rest ih =>
    intro a row hnd
    obtain ⟨a', rows'⟩ := p
    simp only [List.map_cons, List.nodup_cons] at hnd
    obtain ⟨hn1, hn2⟩ := hnd
    simp only [dinsert]
    by_cases ha : a' = a
    · rw [if_pos ha]
      simp only [List.map_cons, List.nodup_cons]
      exact ⟨hn1, hn2⟩
    · rw [if_neg ha]
      simp only [List.map_cons, List.nodup_cons]
      refine ⟨?_, ih a row hn2⟩
      intro hc
      rcases dinsert_keys_sub rest a row a' hc with hc' | hc'
      · exact hn1 hc'
      · exact ha hc'

/-- `dinsert` of a valid row (one whose arity has a shape and offset, with
in-range coordinates) preserves well-formedness. -/
theorem dinsert_wf (shapes : List (Nat × List Nat)) :
    ∀ (acc : List (Nat × List (Nat × List Nat))) (a : Nat) (row : Nat × List Nat),
      WellFormedIdx acc shapes →
      (∃ off sh, arityOffset? shapes a = some off ∧ alookup shapes a = some sh ∧
        ∃ n, ravelMulti? row.2 sh = some n) →
      WellFormedIdx (dinsert acc a row) shapes := by
  intro acc
  induction acc with
  | nil =>
    rintro a row _ ⟨off, sh, hoff, hsh, n, hn⟩
    refine ⟨by simp [dinsert], ?_⟩
    intro p hp
    simp only [dinsert] at hp
    rcases List.mem_singleton.mp hp with rfl
    refine ⟨by simp, off, sh, hoff, hsh, ?_⟩
    intro r hr
    rcases List.mem_singleton.mp hr with rfl
    exact ⟨n, hn⟩
  | cons p0 rest ih =>
    rintro a row ⟨hnd, hprops⟩ hvalid
    obtain ⟨off, sh, hoff, hsh, n, hn⟩ := hvalid
    obtain ⟨a', rows'⟩ := p0
    simp only [List.map_cons, List.nodup_cons] at hnd
    obtain ⟨hn1, hn2⟩ := hnd
    simp only [dinsert]
    by_cases ha : a' = a
    · rw [if_pos ha]
      subst ha
      refine ⟨by simp only [List.map_cons, List.nodup_cons]; exact ⟨hn1, hn2⟩, ?_⟩
      intro p hp
      rcases List.mem_cons.mp hp with rfl | hp'
      · obtain ⟨-, off', sh', hoff', hsh', hrows'⟩ :=
          hprops (a', rows') (List.mem_cons_self _ _)
        have hsheq : sh' = sh := Option.some.inj (hsh'.symm.trans hsh)
        subst hsheq
        refine ⟨by simp, off', sh', hoff', hsh', ?_⟩
        intro r hr
        rcases List.mem_append.mp hr with hr' | hr'
        · exact hrows' r hr'
        · rcases List.mem_singleton.mp hr' with rfl
          exact ⟨n, hn⟩
      · exact hprops p (List.mem_cons_of_mem _ hp')
    · rw [if_neg ha]
      have hwfrest : WellFormedIdx rest shapes :=
        ⟨hn2, fun q hq => hprops q (List.mem_cons_of_mem _ hq)⟩
      obtain ⟨hnd', hprops'⟩ := ih a row hwfrest ⟨off, sh, hoff, hsh, n, hn⟩
      refine ⟨?_, ?_⟩
      · simp only [List.map_cons, List.nodup_cons]
        refine ⟨?_, hnd'⟩
        intro hc
        rcases dinsert_keys_sub rest a row a' hc with hc' | hc'
        · exact hn1 hc'
        · exact ha hc'
      · intro p hp
        rcases List.mem_cons.mp hp with rfl | hp'
        · exact hprops (a', rows') (List.mem_cons_self _ _)
        · exact hprops' p hp'

theorem slotGo_wf (groups : List (Nat × List PredSchema)) (sortedObjs : List String)
    (i : Nat) :
    ∀ (lits : List Lit) (acc acc' : List (Nat × List (Nat × List Nat))),
      WellFormedIdx acc (computeShapes sortedObjs.length groups) →
      slotGo groups sortedObjs i lits acc = some acc' →
      WellFormedIdx acc' (computeShapes sortedObjs.length groups) := by
  intro lits
  induction lits with
  | nil =>
    intro acc acc' hwf h
    have := Option.some.inj h
    subst this
    exact hwf
  | cons lit rest ih =>
    intro acc acc' hwf h
    simp only [slotGo] at h
    cases hg : alookup groups lit.arity with
    | none => rw [hg] at h; cases h
    | some ps =>
      rw [hg] at h
      dsimp only at h
      cases ho : oMapM (fun o => idxOf? o sortedObjs) lit.args with
      | none => rw [ho] at h; cases h
      | some objIdxs =>
        rw [ho] at h
        cases hp : idxOf? lit.pred ((ps.insertionSort predNameLe).map PredSchema.name) with
        | none => rw [hp] at h; cases h
        | some pidx =>
          rw [hp] at h
          refine ih _ acc' ?_ h
          obtain ⟨hlen, hbound⟩ := oMapM_idxOf sortedObjs lit.args objIdxs ho
          have hplt : pidx < ps.length := by
            have := idxOf?_lt lit.pred _ pidx hp
            rwa [List.length_map, List.length_insertionSort] at this
          have hsh := alookup_computeShapes sortedObjs.length groups lit.arity ps hg
          obtain ⟨off, hoff⟩ := arityOffset_of_alookup _ lit.arity _ hsh
          obtain ⟨m, hm⟩ := ravelMulti_replicate objIdxs sortedObjs.length
            ps.length pidx hbound hplt
          refine dinsert_wf _ acc lit.arity (i, objIdxs ++ [pidx]) hwf
            ⟨off, List.replicate lit.arity sortedObjs.length ++ [ps.length],
              hoff, hsh, m, ?_⟩
          have hlit : lit.arity = objIdxs.length := by
            rw [hlen]; rfl
          rw [hlit]
          exact hm

theorem indicesGo_wf (groups : List (Nat × List PredSchema)) (sortedObjs : List String) :
    ∀ (slots : List (List Lit)) (i : Nat) (acc acc' : List (Nat × List (Nat × List Nat))),
      WellFormedIdx acc (computeShapes sortedObjs.length groups) →
      indicesGo groups sortedObjs i slots acc = some acc' →
      WellFormedIdx acc' (computeShapes sortedObjs.length groups) := by
  intro slots
  induction slots with
  | nil =>
    intro i acc acc' hwf h
    have := Option.some.inj h
    subst this
    exact hwf
  | cons slot rest ih =>
    intro i acc acc' hwf h
    simp only [indicesGo] at h
    cases hs : slotGo groups sortedObjs i slot acc with
    | none => rw [hs] at h; cases h
    | some acc'' =>
      rw [hs] at h
      exact ih (i + 1) acc'' acc' (slotGo_wf groups sortedObjs i slot acc acc'' hwf hs) h

theorem computeIndices_wf (literals : List (List Lit)) (objects : List String)
    (preds : List PredSchema) (idx : List (Nat × List (Nat × List Nat)))
    (shapes : List (Nat × List Nat))
    (h : computeIndices literals objects preds = some (idx, shapes)) :
    WellFormedIdx idx shapes := by
  simp only [computeIndices] at h
  cases hg : indicesGo (arityGroups preds) (objects.insertionSort strLe) 0 literals [] with
  | none => rw [hg] at h; cases h
  | some idx' =>
    rw [hg] at h
    have hpair := Option.some.inj h
    rw [Prod.mk.injEq] at hpair
    obtain ⟨hidx, hsh⟩ := hpair
    subst hidx
    subst hsh
    exact indicesGo_wf (arityGroups preds) (objects.insertionSort strLe)
      literals 0 [] _ (by exact ⟨by simp, by intro p hp; cases hp⟩) hg

theorem dinsert_keys_super :
    ∀ (acc : List (Nat × List (Nat × List Nat))) (a : Nat) (row : Nat × List Nat)
      (b : Nat), b ∈ acc.map Prod.fst → b ∈ (dinsert acc a row).map Prod.fst := by
  intro acc
  induction acc with
  | nil => intro a row b hb; cases hb
  | cons p rest ih =>
    intro a row b hb
    obtain ⟨a', rows'⟩ := p
    simp only [List.map_cons] at hb
    simp only [dinsert]
    by_cases ha : a' = a
    · rw [if_pos ha]
      simpa using hb
    · rw [if_neg ha]
      simp only [List.map_cons]
      rcases List.mem_cons.mp hb with rfl | hb'
      · exact List.mem_cons_self _ _
      · exact List.mem_cons_of_mem _ (ih a row b hb')

theorem dinsert_keys_self :
    ∀ (acc : List (Nat × List (Nat × List Nat))) (a : Nat) (row : Nat × List Nat),
      a ∈ (dinsert acc a row).map Prod.fst := by
  intro acc
  induction acc with
  | nil => intro a row; simp [dinsert]
  | cons p rest ih =>
    intro a row
    obtain ⟨a', rows'⟩ := p
    simp only [dinsert]
    by_cases ha : a' = a
    · rw [if_pos ha]
      simp [ha]
    · rw [if_neg ha]
      simp only [List.map_cons]
      exact List.mem_cons_of_mem _ (ih a row)

/-- The arities present in the unravelled result are exactly those decoded
from some flat entry. -/
theorem unravelFold_keys (shapes : List (Nat × List Nat)) :
    ∀ (flat : List (Nat × Nat)) (acc : List (Nat × List (Nat × List Nat))) (b : Nat),
      b ∈ (unravelFold shapes acc flat).map Prod.fst ↔
        b ∈ acc.map Prod.fst ∨
          ∃ p ∈ flat, (decodeFlat p.2 shapes).map Prod.fst = some b := by
  intro flat
  induction flat with
  | nil =>
    intro acc b
    simp [unravelFold]
  | cons q rest ih =>
    intro acc b
    obtain ⟨b0, n⟩ := q
    cases hdec : decodeFlat n shapes with
    | none =>
      simp only [unravelFold, hdec]
      rw [ih acc b]
      constructor
      · rintro (hacc | ⟨p, hp, hd⟩)
        · exact Or.inl hacc
        · exact Or.inr ⟨p, List.mem_cons_of_mem _ hp, hd⟩
      · rintro (hacc | ⟨p, hp, hd⟩)
        · exact Or.inl hacc
        · rcases List.mem_cons.mp hp with rfl | hp'
          · rw [hdec] at hd; cases hd
          · exact Or.inr ⟨p, hp', hd⟩
    | some ac =>
      obtain ⟨a0, coords⟩ := ac
      simp only [unravelFold, hdec]
      rw [ih (dinsert acc a0 (b0, coords)) b]
      constructor
      · rintro (hacc | ⟨p, hp, hd⟩)
        · rcases dinsert_keys_sub acc a0 (b0, coords) b hacc with hc | hc
          · exact Or.inl hc
          · subst hc
            exact Or.inr ⟨(b0, n), List.mem_cons_self _ _, by simp [hdec]⟩
        · exact Or.inr ⟨p, List.mem_cons_of_mem _ hp, hd⟩
      · rintro (hacc | ⟨p, hp, hd⟩)
        · exact Or.inl (dinsert_keys_super acc a0 (b0, coords) b hacc)
        · rcases List.mem_cons.mp hp with rfl | hp'
          · rw [hdec] at hd
            simp only [Option.map] at hd
            have := Option.some.inj hd
            subst this
            exact Or.inl (dinsert_keys_self acc a0 (b0, coords))
          · exact Or.inr ⟨p, hp', hd⟩

/-- C6: for index data produced by `compute_indices` (nonempty, as the NumPy
ravel requires), `unravel` is the exact inverse of `ravel`: the raveled flat
offsets unravel back to exactly the original grouped coordinates, and
ravelling the unravelled result reproduces the flat offsets; moreover an
arity appears in an unravelled result iff some flat entry decodes to it, so a
flat input with no entries for an arity block simply lacks that arity—no
error, no fabricated entries. -/
theorem index_ravel_unravel_roundtrip :
    (∀ (literals : List (List Lit)) (objects : List String) (preds : List PredSchema)
      (idx : List (Nat × List (Nat × List Nat))) (shapes : List (Nat × List Nat)),
      computeIndices literals objects preds = some (idx, shapes) →
      idx ≠ [] →
      ∃ flat, ravel_literal_indices idx shapes = some flat ∧
        unravel_literal_indices flat shapes = idx ∧
        ravel_literal_indices (unravel_literal_indices flat shapes) shapes = some flat)
    ∧ ∀ (flat : List (Nat × Nat)) (shapes : List (Nat × List Nat)) (a : Nat),
        a ∈ (unravel_literal_indices flat shapes).map Prod.fst ↔
          ∃ p ∈ flat, (decodeFlat p.2 shapes).map Prod.fst = some a := by
  constructor
  · intro literals objects preds idx shapes hcomp hne
    have hwf := computeIndices_wf literals objects preds idx shapes hcomp
    obtain ⟨flat, hflat⟩ := ravelAll_isSome shapes idx hwf
    have hunr : unravel_literal_indices flat shapes = idx := by
      have := unravelFold_ravelAll shapes idx flat hwf hflat [] (by simp)
      simpa [unravel_literal_indices] using this
    refine ⟨flat, ?_, hunr, ?_⟩
    · simp only [ravel_literal_indices, if_neg hne]
      exact hflat
    · rw [hunr]
      simp only [ravel_literal_indices, if_neg hne]
      exact hflat
  · intro flat shapes a
    have := unravelFold_keys shapes flat [] a
    simpa [unravel_literal_indices] using this

instance : DecidableEq (List (Nat × List (Nat × List Nat))) := inferInstance

/-- Witness for C6: the `compute_indices` example of
`test_ravel_unravel_idempotent` round-trips, and the
`test_unravel_with_missing_arity` input yields one arity-2 entry and no
arity-1 entry. -/
theorem index_ravel_unravel_roundtrip_witness :
    (ravel_literal_indices
        [(1, [(0, [2, 0]), (1, [2, 0])]), (2, [(1, [0, 1, 0])])]
        [(1, [3, 3]), (2, [3, 3, 2])] = some [(0, 6), (1, 6), (1, 11)]
      ∧ unravel_literal_indices [(0, 6), (1, 6), (1, 11)]
          [(1, [3, 3]), (2, [3, 3, 2])] =
        [(1, [(0, [2, 0]), (1, [2, 0])]), (2, [(1, [0, 1, 0])])]
      ∧ ravel_literal_indices
          (unravel_literal_indices [(0, 6), (1, 6), (1, 11)]
            [(1, [3, 3]), (2, [3, 3, 2])])
          [(1, [3, 3]), (2, [3, 3, 2])] = some [(0, 6), (1, 6), (1, 11)])
    ∧ unravel_literal_indices [(0, 20)] [(1, [3, 2]), (2, [3, 3, 2])] =
        [(2, [(0, [2, 1, 0])])]
    ∧ ¬ 1 ∈ (unravel_literal_indices [(0, 20)]
        [(1, [3, 2]), (2, [3, 3, 2])]).map Prod.fst := by
  refine ⟨?_, by decide, ?_⟩
  · have hcomp : computeIndices
        [[(⟨"Clean", ["house"]⟩ : Lit)],
         [(⟨"Clean", ["house"]⟩ : Lit), ⟨"In", ["cat", "hat"]⟩]]
        ["cat", "hat", "house"] [inP, outP, cleanP, dirtyP, happyP] =
        some ([(1, [(0, [2, 0]), (1, [2, 0])]), (2, [(1, [0, 1, 0])])],
          [(1, [3, 3]), (2, [3, 3, 2])]) := by decide
    obtain ⟨flat, h1, h2, h3⟩ :=
      index_ravel_unravel_roundtrip.1 _ _ _ _ _ hcomp (by decide)
    have hd : ravel_literal_indices
        [(1, [(0, [2, 0]), (1, [2, 0])]), (2, [(1, [0, 1, 0])])]
        [(1, [3, 3]), (2, [3, 3, 2])] = some [(0, 6), (1, 6), (1, 11)] := by decide
    have hf : flat = [(0, 6), (1, 6), (1, 11)] :=
      Option.some.inj (h1.symm.trans hd)
    subst hf
    exact ⟨h1, h2, h3⟩
  · intro hmem
    have := (index_ravel_unravel_roundtrip.2 [(0, 20)]
      [(1, [3, 2]), (2, [3, 3, 2])] 1).mp hmem
    revert this
    decide

end Pddlenv
